import Mathlib

/-!
Verification of the PyEncrypt cipher toolkit.

Python strings are modelled as lists of Unicode code points (`List Nat`);
Python integers arising in the ciphers are modelled as `Nat` or `Int`
matching the sign behaviour of each site (Python `%` on a positive modulus
agrees with `Int.emod`).  Fallible operations return `Except String`.
-/

namespace PyEncrypt

/-- Python `str.lower` restricted to ASCII, as applied by `to_lower_case`. -/
def to_lower_case (s : List Nat) : List Nat :=
  s.map (fun c => if 65 ≤ c ∧ c ≤ 90 then c + 32 else c)

/-- `remove_spaces` from process_funcs.py: `s.replace(" ", "")`. -/
def remove_spaces (s : List Nat) : List Nat := s.filter (fun c => c != 32)

/-- `numeric_representation`: `ord(c) - 97` (may be negative, e.g. -65 for space). -/
def numeric_representation (c : Nat) : Int := (c : Int) - 97

/-- `character_representation`: `chr(c + 97)`. -/
def character_representation (i : Int) : Nat := (i + 97).toNat

/-- Base-10 digits of `m`, least significant first, with explicit fuel
(`fuel ≥ m` suffices); mirrors the digit stream of Python `str(int)`. -/
def digitsRevFuel : Nat → Nat → List Nat
  | 0, _ => []
  | fuel + 1, m => if m = 0 then [] else m % 10 :: digitsRevFuel fuel (m / 10)

/-- Python `str` on a nonnegative int, as a list of digit code points. -/
def str_nat (m : Nat) : List Nat :=
  if m = 0 then [48] else (digitsRevFuel m m).reverse.map (fun d => d + 48)

/-- Python `int` on a string of decimal digit code points. -/
def int_str (l : List Nat) : Nat :=
  Nat.ofDigits 10 ((l.map (fun d => d - 48)).reverse)

/-- `pad_numeric_representation`: `str(c).zfill(len + 1)` when the length is odd. -/
def pad_numeric_representation (m : Nat) : List Nat :=
  if (str_nat m).length % 2 = 1 then 48 :: str_nat m else str_nat m

/-- Fuel-driven worker for `chunk`; `fuel ≥ l.length` suffices. -/
def chunkAux (g : Nat) : Nat → List α → List (List α)
  | _, [] => []
  | 0, _ :: _ => []
  | fuel + 1, a :: l => ((a :: l).take g) :: chunkAux g fuel ((a :: l).drop g)

/-- `[text[i : i + g] for i in range(0, len(text), g)]` for `g > 0`. -/
def chunk (g : Nat) (l : List α) : List (List α) := chunkAux g l.length l

/-- The message of the `ValueError` raised by Python `range` on step 0. -/
def rangeStepErr : String := "range() arg 3 must not be zero"

/-- `Encryption._group_by`: a negative `group_by` means the whole text length;
a zero effective step makes Python `range` raise. -/
def group_by_fn (gb : Int) (text : List Nat) : Except String (List (List Nat)) :=
  let g : Nat := if gb < 0 then text.length else gb.toNat
  if g = 0 then Except.error rangeStepErr
  else Except.ok (chunk g text)

/-- `CaesarCipher._encrypt_group`. -/
def caesar_encrypt_group (shift : Int) (c : Int) : Int :=
  if c = -65 then -65 else (c + shift) % 26

/-- `ord` applied to a length-1 group produced by grouping with size 1. -/
def ord_group (g : List Nat) : Nat := g.headD 0

/-- `CaesarCipher(shift).encrypt`: lowercase, group by 1, numeric codes,
shift transform, characters, join. -/
def caesar_encrypt (shift : Int) (s : List Nat) : Except String (List Nat) :=
  match group_by_fn 1 (to_lower_case s) with
  | Except.error msg => Except.error msg
  | Except.ok gs => Except.ok (gs.map (fun g =>
      character_representation (caesar_encrypt_group shift (numeric_representation (ord_group g)))))

/-- `CaesarCipher.decrypt` = encryption with the derived object `CaesarCipher(-shift)`. -/
def caesar_decrypt (shift : Int) (s : List Nat) : Except String (List Nat) :=
  caesar_encrypt (-shift) s

/-- The key digits stored by `VigenereCipher.__init__`. -/
def vig_key_digits (key : List Nat) : List Int := key.map numeric_representation

/-- `VigenereCipher._encrypt_group`, processing position `i` onwards. -/
def vigenere_encrypt_group (key : List Int) : Nat → List Int → List Int
  | _, [] => []
  | i, c :: rest =>
    (if c = -65 then (-65 : Int) else (c + key[i % key.length]!) % 26) ::
      vigenere_encrypt_group key (i + 1) rest

/-- `VigenereCipher(key).encrypt`: lowercase, one whole-input group
(`group_by = -1`), numeric codes, keyed shifts, characters, join. -/
def vigenere_encrypt (key : List Nat) (s : List Nat) : Except String (List Nat) :=
  match group_by_fn (-1) (to_lower_case s) with
  | Except.error msg => Except.error msg
  | Except.ok gs => Except.ok ((gs.map (fun g =>
      (vigenere_encrypt_group (vig_key_digits key) 0 (g.map numeric_representation)).map
        character_representation)).flatten)

/-- The key string built by `VigenereCipher._make_decryption_object`:
`"".join(character_representation([26 - i for i in self.key]))`. -/
def vig_decryption_key (key : List Nat) : List Nat :=
  (vig_key_digits key).map (fun i => character_representation (26 - i))

/-- `VigenereCipher.decrypt` = encryption with the derived key. -/
def vigenere_decrypt (key : List Nat) (s : List Nat) : Except String (List Nat) :=
  vigenere_encrypt (vig_decryption_key key) s

/-- The filler count `n - (len(s) - 1) % n - 1` of the `pad` closure of
`TranspositionCipher.__init__`, with Python (floor) mod. -/
def pad_count (n len : Nat) : Nat := n - (((len : Int) - 1) % (n : Int)).toNat - 1

/-- The `pad` closure of `TranspositionCipher.__init__`:
`s + "?" * (n - (len(s) - 1) % n - 1)`. -/
def transposition_pad (n : Nat) (s : List Nat) : List Nat :=
  s ++ List.replicate (pad_count n s.length) 63

/-- `TranspositionCipher._encrypt_group`: fill `s[sigma[i]] = group[i]` and join. -/
def transposition_group (sigma : List Nat) (g : List Nat) : List Nat :=
  ((List.range sigma.length).foldl (fun acc i => acc.set sigma[i]! [g[i]!])
    (List.replicate sigma.length ([] : List Nat))).flatten

/-- `TranspositionCipher(sigma).encrypt`: pad, group by `n = len(sigma)`,
permute each group, join. -/
def transposition_encrypt (sigma : List Nat) (s : List Nat) : Except String (List Nat) :=
  match group_by_fn (sigma.length : Int) (transposition_pad sigma.length s) with
  | Except.error msg => Except.error msg
  | Except.ok gs => Except.ok ((gs.map (transposition_group sigma)).flatten)

/-- `[self.sigma.index(i) for i in range(self.group_by)]`. -/
def transposition_inverse_sigma (sigma : List Nat) : List Nat :=
  (List.range sigma.length).map (fun i => sigma.indexOf i)

/-- `TranspositionCipher.decrypt` = encryption with the inverse permutation. -/
def transposition_decrypt (sigma : List Nat) (s : List Nat) : Except String (List Nat) :=
  transposition_encrypt (transposition_inverse_sigma sigma) s

/-- `convert_to_rsa_format`: each character becomes its zero-padded
two-digit numeric code, concatenated. -/
def convert_to_rsa_format (s : List Nat) : List Nat :=
  (s.map (fun c => pad_numeric_representation (numeric_representation c).toNat)).flatten

/-- `convert_each_2_digits_to_char`. -/
def convert_each_2_digits_to_char (s : List Nat) : List Nat :=
  (chunk 2 s).map (fun pr => character_representation ((int_str pr : Int)))

/-- The `while int(s) < n` loop of `RSA.calculate_group_by`, with fuel
(`fuel ≥ n` always suffices because `s` grows by a factor of 100 each step). -/
def group_by_loop : Nat → Nat → Nat → Nat → Nat
  | 0, _, _, c => c
  | fuel + 1, n, s, c => if s < n then group_by_loop fuel n (s * 100 + 25) (c + 1) else c

/-- `RSA.calculate_group_by`. -/
def calculate_group_by (n : Nat) : Nat := group_by_loop n n 25 0 * 2

/-- Extended Euclid with fuel (`fuel ≥ a` suffices): returns `(x, y)`
with `x * a + y * b = gcd a b`; models the inverse computed by Python
`pow(e, -1, phi)`. -/
def egcd : Nat → Nat → Nat → Int × Int
  | 0, _, _ => (0, 1)
  | fuel + 1, a, b =>
    if a = 0 then (0, 1)
    else
      let r := egcd fuel (b % a) a
      (r.2 - ((b / a : Nat) : Int) * r.1, r.1)

/-- The canonical modular inverse in `[0, phi)` returned by `pow(e, -1, phi)`. -/
def mod_inverse (e phi : Nat) : Nat := ((egcd e e phi).1 % (phi : Int)).toNat

/-- `RSA.calculate_d_slow`: first `d in range(phi)` with `(e*d) % phi == 1`;
falls off the end (Python `None`, here `none`) when there is no such `d`. -/
def calculate_d_slow (e phi : Nat) : Option Nat :=
  (List.range phi).find? (fun d => (e * d) % phi == 1)

/-- `RSA.calculate_d`: `pow(e, -1, phi)` when it succeeds (modulus positive
and operands coprime), otherwise the brute-force fallback. -/
def calculate_d (e phi : Nat) : Option Nat :=
  if 0 < phi ∧ Nat.gcd e phi = 1 then some (mod_inverse e phi) else calculate_d_slow e phi

/-- The acceptance test `RSA.calculate_d(e, phi) != -1` from
`calculate_p_and_q` (in Python, `None != -1` is `True`). -/
def d_test (e phi : Nat) : Bool :=
  match calculate_d e phi with
  | none => true
  | some d => (d : Int) != -1

/-- Message of the guard `n must be greater than 1`. -/
def nErr : String := "n must be greater than 1"

/-- Message of the guard `e must be greater than 1`. -/
def eErr : String := "e must be greater than 1"

/-- Message of the guard `e must be less than n`. -/
def enErr : String := "e must be less than n"

/-- `RSA.calculate_p_and_q`: guards, then trial division over `range(2, n)`,
returning the sentinel `(-1, -1)` when the range is exhausted. -/
def calculate_p_and_q (n e : Nat) : Except String (Int × Int) :=
  if n < 2 then Except.error nErr
  else if e < 2 then Except.error eErr
  else if n ≤ e then Except.error enErr
  else
    match (List.range' 2 (n - 2)).find?
        (fun p => n % p == 0 && d_test e ((p - 1) * (n / p - 1))) with
    | some p => Except.ok ((p : Int), ((n / p : Nat) : Int))
    | none => Except.ok (-1, -1)

/-- `RSA(n, e).encrypt`: lowercase, strip spaces, two-digit encode, group by
`calculate_group_by n`, parse blocks, `m ** e % n`, even-pad, join. -/
def rsa_encrypt (n e : Nat) (s : List Nat) : Except String (List Nat) :=
  match group_by_fn ((calculate_group_by n : Nat) : Int)
      (convert_to_rsa_format (remove_spaces (to_lower_case s))) with
  | Except.error msg => Except.error msg
  | Except.ok gs =>
    Except.ok ((gs.map (fun b => pad_numeric_representation (int_str b ^ e % n))).flatten)

/-- Encryption by the object returned by `RSA._make_decryption_object`:
raw preprocessors emptied, postprocessors switched to even-pad then
decode pairs to characters, exponent `d`. -/
def rsa_decryption_encrypt (n d : Nat) (x : List Nat) : Except String (List Nat) :=
  match group_by_fn ((calculate_group_by n : Nat) : Int) x with
  | Except.error msg => Except.error msg
  | Except.ok gs =>
    Except.ok ((gs.map (fun b =>
      convert_each_2_digits_to_char (pad_numeric_representation (int_str b ^ d % n)))).flatten)

/-- The attributes fixed by `RSA.__init__` when `p` and `q` are left at `-1`:
no validation runs, so construction always succeeds. -/
structure RSAParams where
  n : Nat
  e : Nat
  group_by : Nat

/-- `RSA(n, e)` with default `p = q = -1` (no validation). -/
def rsa_init (n e : Nat) : RSAParams := ⟨n, e, calculate_group_by n⟩

/-- The number whose decimal notation is `"25"` repeated `k` times:
the running `s` of `calculate_group_by` and the largest value of a block
of `k` two-digit codes that are each at most 25. -/
def S25 : Nat → Nat
  | 0 => 0
  | k + 1 => S25 k * 100 + 25

/-! ### Infrastructure: chunking -/

theorem chunkAux_congr {α : Type} (g : Nat) (hg : 0 < g) :
    ∀ (f1 : Nat) (f2 : Nat) (l : List α), l.length ≤ f1 → l.length ≤ f2 →
      chunkAux g f1 l = chunkAux g f2 l := by
  intro f1
  induction f1 with
  | zero =>
    intro f2 l h1 _
    have : l = [] := List.length_eq_zero.mp (Nat.le_antisymm h1 (Nat.zero_le _))
    subst this
    cases f2 <;> rfl
  | succ f ih =>
    intro f2 l h1 h2
    cases l with
    | nil => cases f2 <;> rfl
    | cons a t =>
      cases f2 with
      | zero => simp at h2
      | succ f2 =>
        show ((a :: t).take g) :: chunkAux g f ((a :: t).drop g)
            = ((a :: t).take g) :: chunkAux g f2 ((a :: t).drop g)
        have hdrop : ((a :: t).drop g).length = (a :: t).length - g := by
          simp [List.length_drop]
        have hlen : (a :: t).length - g ≤ f := by
          have := h1
          simp only [List.length_cons] at this
          omega
        have hlen2 : (a :: t).length - g ≤ f2 := by
          have := h2
          simp only [List.length_cons] at this
          omega
        rw [ih f2 _ (by rw [hdrop]; exact hlen) (by rw [hdrop]; exact hlen2)]

theorem chunk_nil {α : Type} (g : Nat) : chunk g ([] : List α) = [] := rfl

theorem chunk_cons {α : Type} {g : Nat} (hg : 0 < g) (l : List α) (hl : l ≠ []) :
    chunk g l = l.take g :: chunk g (l.drop g) := by
  cases l with
  | nil => exact absurd rfl hl
  | cons a t =>
    show chunkAux g ((a :: t).length) (a :: t) = _
    have : (a :: t).length = t.length + 1 := by simp
    rw [this]
    show ((a :: t).take g) :: chunkAux g t.length ((a :: t).drop g)
        = ((a :: t).take g) :: chunkAux g ((a :: t).drop g).length ((a :: t).drop g)
    congr 1
    apply chunkAux_congr g hg
    · simp [List.length_drop]; omega
    · exact Nat.le_refl _

theorem flatten_chunk {α : Type} {g : Nat} (hg : 0 < g) (l : List α) :
    (chunk g l).flatten = l := by
  have key : ∀ (n : Nat) (l : List α), l.length ≤ n → (chunk g l).flatten = l := by
    intro n
    induction n with
    | zero =>
      intro l h
      have : l = [] := List.length_eq_zero.mp (Nat.le_antisymm h (Nat.zero_le _))
      subst this; rfl
    | succ n ih =>
      intro l h
      by_cases hl : l = []
      · subst hl; rfl
      · rw [chunk_cons hg l hl]
        have hlen : (l.drop g).length ≤ n := by
          have h0 : 0 < l.length := List.length_pos.mpr hl
          simp [List.length_drop]; omega
        simp only [List.flatten_cons, ih _ hlen, List.take_append_drop]
  exact key l.length l (Nat.le_refl _)

theorem chunk_flatten {α : Type} {g : Nat} (hg : 0 < g) :
    ∀ (bs : List (List α)), (∀ b ∈ bs, b.length = g) → chunk g bs.flatten = bs := by
  intro bs
  induction bs with
  | nil => intro _; rfl
  | cons b rest ih =>
    intro h
    have hb : b.length = g := h b (List.mem_cons_self _ _)
    have hbne : b ≠ [] := by
      intro hb0; rw [hb0] at hb; simp at hb; omega
    have hne : b ++ rest.flatten ≠ [] := by
      intro hcon
      exact hbne (List.append_eq_nil.mp hcon).1
    rw [List.flatten_cons, chunk_cons hg _ hne, List.take_left' hb, List.drop_left' hb]
    rw [ih (fun x hx => h x (List.mem_cons_of_mem _ hx))]

theorem chunk_append {α : Type} {g : Nat} (hg : 0 < g) :
    ∀ (a b : List α), g ∣ a.length → chunk g (a ++ b) = chunk g a ++ chunk g b := by
  have key : ∀ (n : Nat) (a b : List α), a.length ≤ n → g ∣ a.length →
      chunk g (a ++ b) = chunk g a ++ chunk g b := by
    intro n
    induction n with
    | zero =>
      intro a b h _
      have : a = [] := List.length_eq_zero.mp (Nat.le_antisymm h (Nat.zero_le _))
      subst this; simp [chunk_nil]
    | succ n ih =>
      intro a b h hdvd
      by_cases ha : a = []
      · subst ha; simp [chunk_nil]
      · have hga : g ≤ a.length := by
          rcases hdvd with ⟨k, hk⟩
          have hk0 : k ≠ 0 := by
            intro h0; rw [h0, Nat.mul_zero] at hk
            exact ha (List.length_eq_zero.mp hk)
          calc g = g * 1 := by omega
          _ ≤ g * k := Nat.mul_le_mul_left g (Nat.one_le_iff_ne_zero.mpr hk0)
          _ = a.length := hk.symm
        have hane : a ++ b ≠ [] := by
          intro hcon; exact ha (List.append_eq_nil.mp hcon).1
        have hsplit : a = a.take g ++ a.drop g := (List.take_append_drop g a).symm
        have htake : (a.take g).length = g := by
          simp [List.length_take]; omega
        have h1 : (a ++ b).take g = a.take g := by
          conv_lhs => rw [hsplit, List.append_assoc]
          exact List.take_left' htake
        have h2 : (a ++ b).drop g = a.drop g ++ b := by
          conv_lhs => rw [hsplit, List.append_assoc]
          exact List.drop_left' htake
        rw [chunk_cons hg _ hane, h1, h2, chunk_cons hg a ha]
        have hdlen : (a.drop g).length = a.length - g := List.length_drop g a
        rw [ih (a.drop g) b (by omega) (by rw [hdlen]; exact Nat.dvd_sub' hdvd dvd_rfl)]
        simp
  intro a b hdvd
  exact key a.length a b (Nat.le_refl _) hdvd

theorem mem_chunk_length {α : Type} {g : Nat} (hg : 0 < g) :
    ∀ (l : List α), ∀ b ∈ chunk g l, b.length ≤ g ∧ b ≠ [] := by
  have key : ∀ (n : Nat) (l : List α), l.length ≤ n →
      ∀ b ∈ chunk g l, b.length ≤ g ∧ b ≠ [] := by
    intro n
    induction n with
    | zero =>
      intro l h b hb
      have : l = [] := List.length_eq_zero.mp (Nat.le_antisymm h (Nat.zero_le _))
      subst this; simp [chunk_nil] at hb
    | succ n ih =>
      intro l h b hb
      by_cases hl : l = []
      · subst hl; simp [chunk_nil] at hb
      · rw [chunk_cons hg l hl] at hb
        rcases List.mem_cons.mp hb with hb | hb
        · subst hb
          constructor
          · simp [List.length_take]
          · rw [Ne, List.take_eq_nil_iff]
            push_neg
            exact ⟨by omega, hl⟩
        · have h0 : 0 < l.length := List.length_pos.mpr hl
          exact ih (l.drop g) (by simp [List.length_drop]; omega) b hb
  intro l
  exact key l.length l (Nat.le_refl _)

theorem mem_chunk_length_dvd {α : Type} {g : Nat} (hg : 0 < g) :
    ∀ (l : List α), g ∣ l.length → ∀ b ∈ chunk g l, b.length = g := by
  have key : ∀ (n : Nat) (l : List α), l.length ≤ n → g ∣ l.length →
      ∀ b ∈ chunk g l, b.length = g := by
    intro n
    induction n with
    | zero =>
      intro l h _ b hb
      have : l = [] := List.length_eq_zero.mp (Nat.le_antisymm h (Nat.zero_le _))
      subst this; simp [chunk_nil] at hb
    | succ n ih =>
      intro l h hdvd b hb
      by_cases hl : l = []
      · subst hl; simp [chunk_nil] at hb
      · have hga : g ≤ l.length := by
          rcases hdvd with ⟨k, hk⟩
          have hk0 : k ≠ 0 := by
            intro h0; rw [h0, Nat.mul_zero] at hk
            exact hl (List.length_eq_zero.mp hk)
          calc g = g * 1 := by omega
          _ ≤ g * k := Nat.mul_le_mul_left g (Nat.one_le_iff_ne_zero.mpr hk0)
          _ = l.length := hk.symm
        rw [chunk_cons hg l hl] at hb
        rcases List.mem_cons.mp hb with hb | hb
        · subst hb; simp [List.length_take]; omega
        · have hdlen : (l.drop g).length = l.length - g := List.length_drop g l
          exact ih (l.drop g) (by omega)
            (by rw [hdlen]; exact Nat.dvd_sub' hdvd dvd_rfl) b hb
  intro l
  exact key l.length l (Nat.le_refl _)

theorem chunk_length_self {α : Type} (l : List α) (hl : l ≠ []) :
    chunk l.length l = [l] := by
  have h0 : 0 < l.length := List.length_pos.mpr hl
  rw [chunk_cons h0 l hl, List.take_length, List.drop_length, chunk_nil]

theorem chunk_one {α : Type} (l : List α) : chunk 1 l = l.map (fun a => [a]) := by
  induction l with
  | nil => rfl
  | cons a t ih =>
    rw [chunk_cons Nat.one_pos _ (by simp)]
    simp only [List.take_succ_cons, List.take_zero, List.drop_succ_cons, List.drop_zero,
      List.map_cons]
    rw [ih]

theorem flatten_length_const {α : Type} {g : Nat} :
    ∀ (L : List (List α)), (∀ b ∈ L, b.length = g) → L.flatten.length = L.length * g := by
  intro L
  induction L with
  | nil => intro _; simp
  | cons b rest ih =>
    intro h
    simp only [List.flatten_cons, List.length_append, List.length_cons,
      h b (List.mem_cons_self _ _), ih (fun x hx => h x (List.mem_cons_of_mem _ hx))]
    ring

theorem chunk_two_flatten :
    ∀ (bs : List (List Nat)), (∀ b ∈ bs, 2 ∣ b.length) →
      chunk 2 bs.flatten = (bs.map (chunk 2)).flatten := by
  intro bs
  induction bs with
  | nil => intro _; rfl
  | cons b rest ih =>
    intro h
    rw [List.flatten_cons, chunk_append Nat.two_pos b _ (h b (List.mem_cons_self _ _)),
      List.map_cons, List.flatten_cons, ih (fun x hx => h x (List.mem_cons_of_mem _ hx))]

/-! ### Infrastructure: grouping and the alphabet codec -/

theorem group_by_fn_pos (g : Nat) (hg : 0 < g) (text : List Nat) :
    group_by_fn (g : Int) text = Except.ok (chunk g text) := by
  unfold group_by_fn
  have h1 : ¬ ((g : Int) < 0) := by omega
  have h2 : (g : Int).toNat = g := by omega
  simp only [h1, if_false, h2]
  rw [if_neg (by omega)]

theorem group_by_fn_neg (gb : Int) (hgb : gb < 0) (text : List Nat) (ht : text ≠ []) :
    group_by_fn gb text = Except.ok [text] := by
  unfold group_by_fn
  have h0 : 0 < text.length := List.length_pos.mpr ht
  simp only [hgb, if_true]
  rw [if_neg (by omega), chunk_length_self text ht]

theorem group_by_fn_neg_nil (gb : Int) (hgb : gb < 0) :
    group_by_fn gb [] = Except.error rangeStepErr := by
  unfold group_by_fn
  simp [hgb]

theorem group_by_fn_zero (text : List Nat) :
    group_by_fn 0 text = Except.error rangeStepErr := by
  unfold group_by_fn
  norm_num

/-- Lowercase letters and the space character: the input domain of the
round-trip claim. -/
def isLS (c : Nat) : Prop := c = 32 ∨ (97 ≤ c ∧ c ≤ 122)

instance (c : Nat) : Decidable (isLS c) :=
  decidable_of_iff (c = 32 ∨ (97 ≤ c ∧ c ≤ 122)) Iff.rfl

theorem to_lower_id (s : List Nat) (h : ∀ c ∈ s, isLS c) : to_lower_case s = s := by
  unfold to_lower_case
  have := List.map_congr_left (l := s) (f := fun c => if 65 ≤ c ∧ c ≤ 90 then c + 32 else c)
    (g := id) (by
      intro c hc
      rcases h c hc with h32 | ⟨h1, h2⟩ <;> simp <;> omega)
  rw [this, List.map_id]

theorem character_numeric (c : Nat) :
    character_representation (numeric_representation c) = c := by
  unfold character_representation numeric_representation
  omega

theorem numeric_character (i : Int) (h : -97 ≤ i) :
    numeric_representation (character_representation i) = i := by
  unfold character_representation numeric_representation
  omega

theorem isLS_character (v : Int) (h : v = -65 ∨ (0 ≤ v ∧ v < 26)) :
    isLS (character_representation v) := by
  unfold character_representation isLS
  omega

/-- Cancellation of two successive shifts whose sum vanishes mod 26:
covers both the Caesar inverse `-k` and the Vigenère inverse `26 - k`. -/
theorem emod_shift_cancel (c k j : Int) (h0 : 0 ≤ c) (h26 : c < 26)
    (hkj : (k + j) % 26 = 0) : ((c + k) % 26 + j) % 26 = c := by
  have hdvd : (26 : Int) ∣ (k + j) := Int.dvd_of_emod_eq_zero hkj
  rcases hdvd with ⟨t, ht⟩
  have h1 : ((c + k) % 26 + j) % 26 = (c + k + j) % 26 := by
    conv_rhs => rw [Int.add_emod (c + k) j]
    rw [Int.add_emod ((c + k) % 26) j, Int.emod_emod_of_dvd _ dvd_rfl]
  rw [h1]
  have h2 : c + k + j = c + 26 * t := by omega
  rw [h2, Int.add_mul_emod_self_left, Int.emod_eq_of_lt h0 h26]

/-! ### Infrastructure: the group-size loop and `S25` -/

theorem S25_succ (k : Nat) : S25 (k + 1) = S25 k * 100 + 25 := rfl

theorem S25_succ_left (k : Nat) : S25 (k + 1) = 25 * 100 ^ k + S25 k := by
  induction k with
  | zero => rfl
  | succ k ih =>
    calc S25 (k + 1 + 1) = S25 (k + 1) * 100 + 25 := rfl
    _ = (25 * 100 ^ k + S25 k) * 100 + 25 := by rw [ih]
    _ = 25 * 100 ^ (k + 1) + (S25 k * 100 + 25) := by ring
    _ = 25 * 100 ^ (k + 1) + S25 (k + 1) := by rw [S25_succ]

theorem S25_mono {a b : Nat} (h : a ≤ b) : S25 a ≤ S25 b := by
  induction b with
  | zero =>
    have ha : a = 0 := Nat.le_zero.mp h
    subst ha
    exact Nat.le_refl _
  | succ b ih =>
    rcases Nat.lt_or_ge a (b + 1) with h1 | h1
    · have := ih (by omega)
      rw [S25_succ]
      omega
    · have ha : a = b + 1 := by omega
      subst ha
      exact Nat.le_refl _

theorem lt_S25_succ (n : Nat) : n < S25 (n + 1) := by
  induction n with
  | zero => simp [S25]
  | succ n ih =>
    rw [S25_succ]
    have h1 : S25 (n + 1) ≥ n + 1 := ih
    omega

theorem group_by_loop_spec (n : Nat) :
    ∀ (fuel c : Nat), (∀ k ≤ c, S25 k < n) → n ≤ S25 (c + 1 + fuel) →
      n ≤ S25 (group_by_loop fuel n (S25 (c + 1)) c + 1) ∧
      (∀ k ≤ group_by_loop fuel n (S25 (c + 1)) c, S25 k < n) ∧
      c ≤ group_by_loop fuel n (S25 (c + 1)) c := by
  intro fuel
  induction fuel with
  | zero =>
    intro c hlow hhigh
    show n ≤ S25 (c + 1) ∧ _ ∧ _
    exact ⟨by simpa using hhigh, hlow, Nat.le_refl _⟩
  | succ fuel ih =>
    intro c hlow hhigh
    have hstep : group_by_loop (fuel + 1) n (S25 (c + 1)) c
        = if S25 (c + 1) < n then group_by_loop fuel n (S25 (c + 1) * 100 + 25) (c + 1)
          else c := rfl
    rw [hstep]
    by_cases hc : S25 (c + 1) < n
    · rw [if_pos hc]
      have hrw : S25 (c + 1) * 100 + 25 = S25 (c + 1 + 1) := (S25_succ (c + 1)).symm
      rw [hrw]
      have hlow2 : ∀ k ≤ c + 1, S25 k < n := by
        intro k hk
        rcases Nat.lt_or_ge k (c + 1) with h1 | h1
        · exact hlow k (by omega)
        · have hkc : k = c + 1 := by omega
          subst hkc; exact hc
      have hhigh2 : n ≤ S25 (c + 1 + 1 + fuel) := by
        have hidx : c + 1 + 1 + fuel = c + 1 + (fuel + 1) := by ring
        rw [hidx]; exact hhigh
      obtain ⟨h1, h2, h3⟩ := ih (c + 1) hlow2 hhigh2
      exact ⟨h1, h2, by omega⟩
    · rw [if_neg hc]
      exact ⟨by omega, hlow, Nat.le_refl _⟩

theorem calculate_group_by_spec (n : Nat) (hn : 1 ≤ n) :
    ∃ c, calculate_group_by n = 2 * c ∧ S25 c < n ∧ n ≤ S25 (c + 1) := by
  have h25 : S25 (0 + 1) = 25 := by simp [S25]
  have hlow : ∀ k ≤ 0, S25 k < n := by
    intro k hk
    have : k = 0 := by omega
    subst this
    simpa [S25] using hn
  have hhigh : n ≤ S25 (0 + 1 + n) := by
    have h1 : n < S25 (n + 1) := lt_S25_succ n
    have h2 : S25 (n + 1) ≤ S25 (0 + 1 + n) := S25_mono (by omega)
    omega
  obtain ⟨h1, h2, _⟩ := group_by_loop_spec n n 0 hlow hhigh
  rw [h25] at h1 h2
  refine ⟨group_by_loop n n 25 0, ?_, ?_, h1⟩
  · unfold calculate_group_by
    ring
  · exact h2 _ (Nat.le_refl _)

/-! ### Infrastructure: modular inverses -/

theorem egcd_spec : ∀ (fuel a b : Nat), a ≤ fuel →
    (egcd fuel a b).1 * a + (egcd fuel a b).2 * b = Nat.gcd a b := by
  intro fuel
  induction fuel with
  | zero =>
    intro a b h
    have ha : a = 0 := by omega
    subst ha
    simp [egcd]
  | succ fuel ih =>
    intro a b h
    by_cases ha : a = 0
    · subst ha
      simp [egcd]
    · have hstep : egcd (fuel + 1) a b
          = ((egcd fuel (b % a) a).2 - ((b / a : Nat) : Int) * (egcd fuel (b % a) a).1,
             (egcd fuel (b % a) a).1) := by
        show (if a = 0 then ((0 : Int), (1 : Int)) else _) = _
        rw [if_neg ha]
      have hfuel : b % a ≤ fuel := by
        have hba : b % a < a := Nat.mod_lt b (Nat.pos_of_ne_zero ha)
        omega
      have hrec := ih (b % a) a hfuel
      have hgcd : Nat.gcd a b = Nat.gcd (b % a) a := Nat.gcd_rec a b
      have hdm : (a : Int) * ((b / a : Nat) : Int) + ((b % a : Nat) : Int) = (b : Int) := by
        exact_mod_cast Nat.div_add_mod b a
      rw [hstep, hgcd]
      linear_combination hrec - (egcd fuel (b % a) a).1 * hdm

theorem mod_inverse_spec (e phi : Nat) (hphi : 1 < phi) (h : Nat.gcd e phi = 1) :
    (e * mod_inverse e phi) % phi = 1 ∧ mod_inverse e phi < phi := by
  have hid := egcd_spec e e phi (Nat.le_refl e)
  rw [h] at hid
  set x := (egcd e e phi).1 with hx
  set y := (egcd e e phi).2 with hy
  have hphi0 : (phi : Int) ≠ 0 := by omega
  have hnn : 0 ≤ x % (phi : Int) := Int.emod_nonneg x hphi0
  have hlt : x % (phi : Int) < phi := Int.emod_lt_of_pos x (by omega)
  have hdval : ((mod_inverse e phi : Nat) : Int) = x % (phi : Int) := by
    unfold mod_inverse
    rw [← hx]
    omega
  constructor
  · have hint : ((e : Int) * (x % (phi : Int))) % phi = 1 := by
      have h1 : ((e : Int) * (x % (phi : Int))) % phi = ((e : Int) * x) % phi := by
        rw [Int.mul_emod ((e : Int)) (x % (phi : Int)), Int.emod_emod_of_dvd x dvd_rfl,
          ← Int.mul_emod]
      have h2 : (e : Int) * x = 1 - y * phi := by
        have hcast : (1 : Int) = x * e + y * phi := by exact_mod_cast hid.symm
        linarith
      have h3 : (1 - y * (phi : Int)) % phi = 1 % phi := by
        have hform : 1 - y * (phi : Int) = 1 + (phi : Int) * (-y) := by ring
        rw [hform, Int.add_mul_emod_self_left]
      have h4 : (1 : Int) % phi = 1 := Int.emod_eq_of_lt (by omega) (by omega)
      rw [h1, h2, h3, h4]
    have hfin : (((e * mod_inverse e phi) % phi : Nat) : Int) = 1 := by
      push_cast
      rw [hdval]
      exact hint
    exact_mod_cast hfin
  · omega

theorem calculate_d_coprime (e phi : Nat) (hphi : 0 < phi) (h : Nat.gcd e phi = 1) :
    calculate_d e phi = some (mod_inverse e phi) := by
  unfold calculate_d
  rw [if_pos ⟨hphi, h⟩]

theorem calculate_d_inverse (e phi : Nat) (hphi : 1 < phi) (h : Nat.gcd e phi = 1) :
    ∃ d, calculate_d e phi = some d ∧ (e * d) % phi = 1 ∧ d < phi := by
  obtain ⟨h1, h2⟩ := mod_inverse_spec e phi hphi h
  exact ⟨mod_inverse e phi, calculate_d_coprime e phi (by omega) h, h1, h2⟩

theorem no_slow_solution (e phi : Nat) (h : Nat.gcd e phi ≠ 1) :
    ∀ d : Nat, (e * d) % phi ≠ 1 := by
  intro d hd
  apply h
  have h1 : Nat.gcd e phi ∣ e * d := Dvd.dvd.mul_right (Nat.gcd_dvd_left e phi) d
  have h2 : Nat.gcd e phi ∣ phi * (e * d / phi) :=
    Dvd.dvd.mul_right (Nat.gcd_dvd_right e phi) _
  have h3 : phi * (e * d / phi) + 1 = e * d := by
    have := Nat.div_add_mod (e * d) phi
    omega
  have h4 : Nat.gcd e phi ∣ 1 := by
    have := Nat.dvd_sub' h1 h2
    rw [show e * d - phi * (e * d / phi) = 1 by omega] at this
    exact this
  exact Nat.dvd_one.mp h4

theorem calculate_d_slow_none (e phi : Nat) (h : Nat.gcd e phi ≠ 1) :
    calculate_d_slow e phi = none := by
  unfold calculate_d_slow
  rw [List.find?_eq_none]
  intro d _
  simp only [beq_iff_eq]
  exact no_slow_solution e phi h d

theorem calculate_d_not_coprime (e phi : Nat) (h : Nat.gcd e phi ≠ 1) :
    calculate_d e phi = none := by
  unfold calculate_d
  rw [if_neg (fun hcon => h hcon.2), calculate_d_slow_none e phi h]

/-! ### Infrastructure: decimal strings -/

theorem digitsRevFuel_eq : ∀ (fuel m : Nat), m ≤ fuel → digitsRevFuel fuel m = Nat.digits 10 m := by
  intro fuel
  induction fuel with
  | zero =>
    intro m h
    have hm : m = 0 := by omega
    subst hm
    simp [digitsRevFuel]
  | succ fuel ih =>
    intro m h
    by_cases hm : m = 0
    · subst hm; simp [digitsRevFuel]
    · have hstep : digitsRevFuel (fuel + 1) m = m % 10 :: digitsRevFuel fuel (m / 10) := by
        show (if m = 0 then [] else m % 10 :: digitsRevFuel fuel (m / 10)) = _
        rw [if_neg hm]
      have hdiv : m / 10 ≤ fuel := by
        have hlt : m / 10 < m := Nat.div_lt_self (Nat.pos_of_ne_zero hm) (by omega)
        omega
      rw [hstep, ih _ hdiv, ← Nat.digits_def' (by omega : 1 < 10) (Nat.pos_of_ne_zero hm)]

theorem str_nat_digits (m : Nat) (hm : m ≠ 0) :
    str_nat m = (Nat.digits 10 m).reverse.map (fun d => d + 48) := by
  unfold str_nat
  rw [if_neg hm, digitsRevFuel_eq m m (Nat.le_refl m)]

theorem int_str_nil : int_str [] = 0 := rfl

theorem int_str_str_nat (m : Nat) : int_str (str_nat m) = m := by
  by_cases hm : m = 0
  · subst hm; rfl
  · rw [str_nat_digits m hm]
    unfold int_str
    rw [List.map_map, List.map_reverse, List.reverse_reverse]
    have : ((fun d => d - 48) ∘ fun d => d + 48) = id := by
      funext d
      simp
    rw [this, List.map_id]
    exact Nat.ofDigits_digits 10 m

theorem str_nat_isDigits (m : Nat) : ∀ x ∈ str_nat m, 48 ≤ x ∧ x ≤ 57 := by
  by_cases hm : m = 0
  · subst hm
    intro x hx
    simp [str_nat] at hx
    omega
  · rw [str_nat_digits m hm]
    intro x hx
    rcases List.mem_map.mp hx with ⟨d, hd, hdx⟩
    have hd10 : d < 10 := Nat.digits_lt_base (by omega) (List.mem_reverse.mp hd)
    omega

theorem str_nat_ne_nil (m : Nat) : str_nat m ≠ [] := by
  by_cases hm : m = 0
  · subst hm
    simp [str_nat]
  · rw [str_nat_digits m hm]
    simp only [Ne, List.map_eq_nil_iff, List.reverse_eq_nil_iff]
    exact Nat.digits_ne_nil_iff_ne_zero.mpr hm

theorem int_str_append (l1 l2 : List Nat) :
    int_str (l1 ++ l2) = int_str l1 * 10 ^ l2.length + int_str l2 := by
  unfold int_str
  rw [List.map_append, List.reverse_append, Nat.ofDigits_append]
  simp only [List.length_reverse, List.length_map]
  ring

theorem int_str_lt (l : List Nat) (h : ∀ x ∈ l, 48 ≤ x ∧ x ≤ 57) :
    int_str l < 10 ^ l.length := by
  unfold int_str
  have hlen : ((l.map (fun d => d - 48)).reverse).length = l.length := by simp
  rw [← hlen]
  apply Nat.ofDigits_lt_base_pow_length (by omega : 1 < 10)
  intro x hx
  rcases List.mem_map.mp (List.mem_reverse.mp hx) with ⟨d, hd, hdx⟩
  have := h d hd
  omega

theorem int_str_pad (m : Nat) : int_str (pad_numeric_representation m) = m := by
  unfold pad_numeric_representation
  by_cases hodd : (str_nat m).length % 2 = 1
  · rw [if_pos hodd]
    have : (48 : Nat) :: str_nat m = [48] ++ str_nat m := rfl
    rw [this, int_str_append]
    have h48 : int_str [48] = 0 := rfl
    rw [h48, int_str_str_nat]
    ring
  · rw [if_neg hodd, int_str_str_nat]

theorem pad_isDigits (m : Nat) : ∀ x ∈ pad_numeric_representation m, 48 ≤ x ∧ x ≤ 57 := by
  unfold pad_numeric_representation
  by_cases hodd : (str_nat m).length % 2 = 1
  · rw [if_pos hodd]
    intro x hx
    rcases List.mem_cons.mp hx with hx | hx
    · omega
    · exact str_nat_isDigits m x hx
  · rw [if_neg hodd]
    exact str_nat_isDigits m

theorem pad_even_len (m : Nat) : 2 ∣ (pad_numeric_representation m).length := by
  unfold pad_numeric_representation
  by_cases hodd : (str_nat m).length % 2 = 1
  · rw [if_pos hodd]
    simp only [List.length_cons]
    omega
  · rw [if_neg hodd]
    omega

theorem str_nat_len_le (m k : Nat) (hk : 1 ≤ k) (hm : m < 10 ^ k) :
    (str_nat m).length ≤ k := by
  by_cases h0 : m = 0
  · subst h0
    simp [str_nat]
    omega
  · rw [str_nat_digits m h0]
    simp only [List.length_map, List.length_reverse]
    rw [Nat.digits_len 10 m (by omega) h0]
    have := (Nat.lt_pow_iff_log_lt (by omega : 1 < 10) h0).mp hm
    omega

theorem str_nat_len_pos (m : Nat) : 1 ≤ (str_nat m).length := by
  have := str_nat_ne_nil m
  cases hs : str_nat m with
  | nil => exact absurd hs this
  | cons a t => simp

theorem pad_len_two (m : Nat) (h : m ≤ 99) : (pad_numeric_representation m).length = 2 := by
  have hle : (str_nat m).length ≤ 2 := str_nat_len_le m 2 (by omega) (by omega)
  have hge : 1 ≤ (str_nat m).length := str_nat_len_pos m
  unfold pad_numeric_representation
  by_cases hodd : (str_nat m).length % 2 = 1
  · rw [if_pos hodd]
    simp only [List.length_cons]
    omega
  · rw [if_neg hodd]
    omega

/-! ### Infrastructure: RSA exponentiation -/

theorem pow_totient_factor_modEq (p : Nat) (hp : p.Prime) (t m : Nat) :
    m ^ ((p - 1) * t + 1) ≡ m [MOD p] := by
  haveI : Fact p.Prime := ⟨hp⟩
  have hcast : ((m ^ ((p - 1) * t + 1) : Nat) : ZMod p) = ((m : Nat) : ZMod p) := by
    push_cast
    by_cases hz : ((m : Nat) : ZMod p) = 0
    · rw [hz]
      exact zero_pow (by omega)
    · rw [pow_add, pow_one, pow_mul]
      rw [ZMod.pow_card_sub_one_eq_one hz]
      simp
  exact (ZMod.natCast_eq_natCast_iff _ _ _).mp hcast

theorem rsa_exp_modEq (p q : Nat) (hp : p.Prime) (hq : q.Prime) (hne : p ≠ q)
    (e d : Nat) (hed : (e * d) % ((p - 1) * (q - 1)) = 1) (m : Nat) :
    m ^ (e * d) ≡ m [MOD p * q] := by
  set phi := (p - 1) * (q - 1) with hphi
  have hed1 : e * d = phi * (e * d / phi) + 1 := by
    have := Nat.div_add_mod (e * d) phi
    omega
  set k := e * d / phi with hk
  have hmp : m ^ (e * d) ≡ m [MOD p] := by
    have : e * d = (p - 1) * ((q - 1) * k) + 1 := by rw [hed1, hphi]; ring
    rw [this]
    exact pow_totient_factor_modEq p hp _ m
  have hmq : m ^ (e * d) ≡ m [MOD q] := by
    have : e * d = (q - 1) * ((p - 1) * k) + 1 := by rw [hed1, hphi]; ring
    rw [this]
    exact pow_totient_factor_modEq q hq _ m
  have hcop : Nat.Coprime p q := (Nat.coprime_primes hp hq).mpr hne
  exact (Nat.modEq_and_modEq_iff_modEq_mul hcop).mp ⟨hmp, hmq⟩

theorem rsa_block_value (p q : Nat) (hp : p.Prime) (hq : q.Prime) (hne : p ≠ q)
    (e d : Nat) (hed : (e * d) % ((p - 1) * (q - 1)) = 1) (m : Nat) (hm : m < p * q) :
    (m ^ e % (p * q)) ^ d % (p * q) = m := by
  have h1 : (m ^ e % (p * q)) ^ d % (p * q) = (m ^ e) ^ d % (p * q) :=
    (Nat.pow_mod (m ^ e) d (p * q)).symm
  have h2 : (m ^ e) ^ d = m ^ (e * d) := (pow_mul m e d).symm
  have h3 : m ^ (e * d) % (p * q) = m % (p * q) := rsa_exp_modEq p q hp hq hne e d hed m
  rw [h1, h2, h3, Nat.mod_eq_of_lt hm]

theorem phi_gt_one (p q : Nat) (hp : p.Prime) (hq : q.Prime) (hne : p ≠ q) :
    1 < (p - 1) * (q - 1) := by
  have hp2 := hp.two_le
  have hq2 := hq.two_le
  have h23 : 3 ≤ p ∨ 3 ≤ q := by omega
  rcases h23 with h3 | h3
  · have hcalc : 2 * 1 ≤ (p - 1) * (q - 1) := Nat.mul_le_mul (by omega) (by omega)
    omega
  · have hcalc : 1 * 2 ≤ (p - 1) * (q - 1) := Nat.mul_le_mul (by omega) (by omega)
    omega

/-! ### Infrastructure: transposition padding -/

theorem pad_count_zero_len (n : Nat) (hn : 0 < n) : pad_count n 0 = 0 := by
  have hneg : (-1 : Int) % (n : Int) = (n : Int) - 1 := by
    have h1 := Int.add_mul_emod_self_left (-1) (n : Int) 1
    have h2 : ((-1 : Int) + (n : Int) * 1) = (n : Int) - 1 := by ring
    rw [h2] at h1
    rw [← h1]
    exact Int.emod_eq_of_lt (by omega) (by omega)
  unfold pad_count
  push_cast
  rw [hneg]
  omega

theorem pad_count_pos_len (n len : Nat) (hn : 0 < n) (hlen : 1 ≤ len) :
    pad_count n len = n - (len - 1) % n - 1 := by
  unfold pad_count
  have hcast : ((len : Int) - 1) = (((len - 1 : Nat) : Int)) := by omega
  rw [hcast]
  have hmod : (((len - 1 : Nat) : Int)) % (n : Int) = (((len - 1) % n : Nat) : Int) := by
    push_cast
    rfl
  rw [hmod]
  omega

theorem pad_count_spec (n len : Nat) (hn : 0 < n) :
    pad_count n len < n ∧ (len + pad_count n len) % n = 0 ∧
      (pad_count n len = 0 ↔ len % n = 0) := by
  by_cases h0 : len = 0
  · subst h0
    rw [pad_count_zero_len n hn]
    simp
    omega
  · have hlen : 1 ≤ len := by omega
    rw [pad_count_pos_len n len hn hlen]
    set r := (len - 1) % n with hr
    set q := (len - 1) / n with hq
    have hrlt : r < n := Nat.mod_lt _ hn
    have hdm : n * q + r = len - 1 := Nat.div_add_mod (len - 1) n
    have hlen_eq : len = n * q + r + 1 := by omega
    refine ⟨by omega, ?_, ?_⟩
    · have hexp : n * (q + 1) = n * q + n := by ring
      have harith : len + (n - r - 1) = n * (q + 1) := by omega
      rw [harith, Nat.mul_mod_right]
    · have hmod : len % n = (r + 1) % n := by
        have hassoc : n * q + r + 1 = n * q + (r + 1) := by ring
        rw [hlen_eq, hassoc, Nat.mul_add_mod]
      rw [hmod]
      constructor
      · intro hz
        have : r = n - 1 := by omega
        rw [this, show n - 1 + 1 = n by omega, Nat.mod_self]
      · intro hz
        by_cases hrn : r + 1 = n
        · omega
        · have : r + 1 < n := by omega
          rw [Nat.mod_eq_of_lt this] at hz
          omega

theorem transposition_pad_dvd (n : Nat) (hn : 0 < n) (s : List Nat) :
    n ∣ (transposition_pad n s).length := by
  obtain ⟨_, h2, _⟩ := pad_count_spec n s.length hn
  unfold transposition_pad
  rw [List.length_append, List.length_replicate]
  exact Nat.dvd_of_mod_eq_zero h2

theorem transposition_pad_of_dvd (n : Nat) (hn : 0 < n) (s : List Nat)
    (h : n ∣ s.length) : transposition_pad n s = s := by
  obtain ⟨_, _, h3⟩ := pad_count_spec n s.length hn
  unfold transposition_pad
  rw [h3.mpr (Nat.mod_eq_zero_of_dvd h), List.replicate_zero, List.append_nil]

/-! ### Infrastructure: the transposition fill loop -/

/-- The state of the fill loop of `TranspositionCipher._encrypt_group`
after processing indices `0, …, m-1`. -/
def tg_fold (sigma g : List Nat) (m : Nat) : List (List Nat) :=
  (List.range m).foldl (fun acc i => acc.set sigma[i]! [g[i]!])
    (List.replicate sigma.length ([] : List Nat))

theorem transposition_group_eq_fold (sigma g : List Nat) :
    transposition_group sigma g = (tg_fold sigma g sigma.length).flatten := rfl

theorem tg_fold_succ (sigma g : List Nat) (m : Nat) :
    tg_fold sigma g (m + 1) = (tg_fold sigma g m).set sigma[m]! [g[m]!] := by
  unfold tg_fold
  rw [List.range_succ, List.foldl_append]
  rfl

theorem tg_fold_length (sigma g : List Nat) (m : Nat) :
    (tg_fold sigma g m).length = sigma.length := by
  induction m with
  | zero => simp [tg_fold]
  | succ m ih => rw [tg_fold_succ, List.length_set, ih]

theorem tg_fold_get (sigma g : List Nat) (hnd : sigma.Nodup)
    (hlt : ∀ x ∈ sigma, x < sigma.length) :
    ∀ m, m ≤ sigma.length → ∀ i, i < m → (tg_fold sigma g m)[sigma[i]!]! = [g[i]!] := by
  intro m
  induction m with
  | zero => intro _ i hi; omega
  | succ m ih =>
    intro hm i hi
    have hmlen : m < sigma.length := by omega
    have hilen : i < sigma.length := by omega
    have hsm : sigma[m]! = sigma[m] := getElem!_pos sigma m hmlen
    have hsi : sigma[i]! = sigma[i] := getElem!_pos sigma i hilen
    have hsm_lt : sigma[m]! < sigma.length := by
      rw [hsm]; exact hlt _ (List.getElem_mem hmlen)
    have hsi_lt : sigma[i]! < sigma.length := by
      rw [hsi]; exact hlt _ (List.getElem_mem hilen)
    rw [tg_fold_succ]
    by_cases him : i = m
    · subst him
      have hset_len : sigma[i]! < ((tg_fold sigma g i).set sigma[i]! [g[i]!]).length := by
        rw [List.length_set, tg_fold_length]; exact hsi_lt
      rw [getElem!_pos ((tg_fold sigma g i).set sigma[i]! [g[i]!]) (sigma[i]!) hset_len]
      exact List.getElem_set_self hset_len
    · have hne : sigma[m]! ≠ sigma[i]! := by
        rw [hsm, hsi]
        intro hcon
        exact him (((hnd.getElem_inj_iff).mp hcon.symm))
      have hset_len : sigma[i]! < ((tg_fold sigma g m).set sigma[m]! [g[m]!]).length := by
        rw [List.length_set, tg_fold_length]; exact hsi_lt
      rw [getElem!_pos ((tg_fold sigma g m).set sigma[m]! [g[m]!]) (sigma[i]!) hset_len,
        List.getElem_set_ne hne]
      have hidx : sigma[i]! < (tg_fold sigma g m).length := by
        rw [tg_fold_length]; exact hsi_lt
      rw [← getElem!_pos (tg_fold sigma g m) (sigma[i]!) hidx]
      exact ih (by omega) i (by omega)

theorem map_getElemBang_range {α : Type} [Inhabited α] (l : List α) :
    (List.range l.length).map (fun j => l[j]!) = l := by
  apply List.ext_getElem
  · simp
  · intro i h1 h2
    have hi : i < l.length := by simpa using h2
    rw [List.getElem_map, List.getElem_range, getElem!_pos l i hi]

theorem flatten_map_singleton {α β : Type} (l : List β) (f : β → α) :
    (l.map (fun j => [f j])).flatten = l.map f := by
  induction l with
  | nil => rfl
  | cons a t ih => simp [ih]

theorem tg_fold_full (sigma g : List Nat) (hnd : sigma.Nodup)
    (hlt : ∀ x ∈ sigma, x < sigma.length)
    (hsurj : ∀ j, j < sigma.length → j ∈ sigma) :
    tg_fold sigma g sigma.length
      = (List.range sigma.length).map (fun j => [g[sigma.indexOf j]!]) := by
  apply List.ext_getElem
  · simp [tg_fold_length]
  · intro j h1 h2
    have hj : j < sigma.length := by rw [tg_fold_length] at h1; exact h1
    have hjmem : j ∈ sigma := hsurj j hj
    have hidx : sigma.indexOf j < sigma.length := List.indexOf_lt_length.mpr hjmem
    have hval : sigma[sigma.indexOf j] = j := List.getElem_indexOf hidx
    have hvalb : sigma[sigma.indexOf j]! = j := by
      rw [getElem!_pos sigma _ hidx]; exact hval
    have hget := tg_fold_get sigma g hnd hlt sigma.length (Nat.le_refl _)
      (sigma.indexOf j) hidx
    rw [hvalb] at hget
    have hjlen : j < (tg_fold sigma g sigma.length).length := h1
    rw [← getElem!_pos (tg_fold sigma g sigma.length) j hjlen, hget, List.getElem_map,
      List.getElem_range]

theorem transposition_group_eq_map (sigma g : List Nat) (hnd : sigma.Nodup)
    (hlt : ∀ x ∈ sigma, x < sigma.length)
    (hsurj : ∀ j, j < sigma.length → j ∈ sigma) :
    transposition_group sigma g
      = (List.range sigma.length).map (fun j => g[sigma.indexOf j]!) := by
  rw [transposition_group_eq_fold, tg_fold_full sigma g hnd hlt hsurj,
    flatten_map_singleton]

theorem transposition_group_length (sigma g : List Nat) (hnd : sigma.Nodup)
    (hlt : ∀ x ∈ sigma, x < sigma.length)
    (hsurj : ∀ j, j < sigma.length → j ∈ sigma) :
    (transposition_group sigma g).length = sigma.length := by
  rw [transposition_group_eq_map sigma g hnd hlt hsurj]
  simp

theorem inverse_sigma_length (sigma : List Nat) :
    (transposition_inverse_sigma sigma).length = sigma.length := by
  simp [transposition_inverse_sigma]

theorem inverse_sigma_get (sigma : List Nat) (j : Nat) (hj : j < sigma.length) :
    (transposition_inverse_sigma sigma)[j]! = sigma.indexOf j := by
  have hlen : j < (transposition_inverse_sigma sigma).length := by
    rw [inverse_sigma_length]; exact hj
  rw [getElem!_pos (transposition_inverse_sigma sigma) j hlen]
  unfold transposition_inverse_sigma
  rw [List.getElem_map, List.getElem_range]

theorem inverse_sigma_entries (sigma : List Nat)
    (hsurj : ∀ j, j < sigma.length → j ∈ sigma) :
    ∀ x ∈ transposition_inverse_sigma sigma, x < (transposition_inverse_sigma sigma).length := by
  intro x hx
  rcases List.mem_map.mp hx with ⟨j, hj, hjx⟩
  have hjlt : j < sigma.length := List.mem_range.mp hj
  rw [inverse_sigma_length]
  rw [← hjx]
  exact List.indexOf_lt_length.mpr (hsurj j hjlt)

theorem inverse_sigma_nodup (sigma : List Nat)
    (hsurj : ∀ j, j < sigma.length → j ∈ sigma) :
    (transposition_inverse_sigma sigma).Nodup := by
  apply List.Nodup.map_on
  · intro x hx y hy hxy
    have hxmem : x ∈ sigma := hsurj x (List.mem_range.mp hx)
    have hymem : y ∈ sigma := hsurj y (List.mem_range.mp hy)
    have hxlt : sigma.indexOf x < sigma.length := List.indexOf_lt_length.mpr hxmem
    have hylt : sigma.indexOf y < sigma.length := List.indexOf_lt_length.mpr hymem
    have hx2 := List.getElem_indexOf hxlt
    have hy2 := List.getElem_indexOf hylt
    have hx3 : sigma[sigma.indexOf x]! = x := by
      rw [getElem!_pos sigma _ hxlt]; exact hx2
    have hy3 : sigma[sigma.indexOf y]! = y := by
      rw [getElem!_pos sigma _ hylt]; exact hy2
    rw [hxy] at hx3
    exact hx3.symm.trans hy3
  · exact List.nodup_range _

theorem inverse_sigma_at_sigma (sigma : List Nat) (hnd : sigma.Nodup)
    (hlt : ∀ x ∈ sigma, x < sigma.length) (i : Nat) (hi : i < sigma.length) :
    (transposition_inverse_sigma sigma)[sigma[i]!]! = i := by
  have hsi : sigma[i]! = sigma[i] := getElem!_pos sigma i hi
  have hlt2 : sigma[i]! < sigma.length := by
    rw [hsi]; exact hlt _ (List.getElem_mem hi)
  rw [inverse_sigma_get sigma (sigma[i]!) hlt2, hsi]
  exact List.indexOf_getElem hnd i hi

theorem inverse_sigma_surj (sigma : List Nat) (hnd : sigma.Nodup)
    (hlt : ∀ x ∈ sigma, x < sigma.length) :
    ∀ j, j < (transposition_inverse_sigma sigma).length →
      j ∈ transposition_inverse_sigma sigma := by
  intro j hj
  rw [inverse_sigma_length] at hj
  have hval := inverse_sigma_at_sigma sigma hnd hlt j hj
  have hsj : sigma[j]! = sigma[j] := getElem!_pos sigma j hj
  have hpos : sigma[j]! < (transposition_inverse_sigma sigma).length := by
    rw [inverse_sigma_length, hsj]
    exact hlt _ (List.getElem_mem hj)
  rw [getElem!_pos (transposition_inverse_sigma sigma) (sigma[j]!) hpos] at hval
  rw [← hval]
  exact List.getElem_mem hpos

theorem inverse_sigma_indexOf (sigma : List Nat) (hnd : sigma.Nodup)
    (hlt : ∀ x ∈ sigma, x < sigma.length)
    (hsurj : ∀ j, j < sigma.length → j ∈ sigma) (i : Nat) (hi : i < sigma.length) :
    (transposition_inverse_sigma sigma).indexOf i = sigma[i]! := by
  have hinv_nd := inverse_sigma_nodup sigma hsurj
  have hsi : sigma[i]! = sigma[i] := getElem!_pos sigma i hi
  have hpos : sigma[i]! < (transposition_inverse_sigma sigma).length := by
    rw [inverse_sigma_length, hsi]
    exact hlt _ (List.getElem_mem hi)
  have hkey := List.indexOf_getElem hinv_nd (sigma[i]!) hpos
  have hval := inverse_sigma_at_sigma sigma hnd hlt i hi
  rw [getElem!_pos (transposition_inverse_sigma sigma) (sigma[i]!) hpos] at hval
  rw [hval] at hkey
  exact hkey

theorem tg_cancel (sigma : List Nat) (hnd : sigma.Nodup)
    (hlt : ∀ x ∈ sigma, x < sigma.length)
    (hsurj : ∀ j, j < sigma.length → j ∈ sigma)
    (b : List Nat) (hb : b.length = sigma.length) :
    transposition_group (transposition_inverse_sigma sigma)
      (transposition_group sigma b) = b := by
  have hinv_nd := inverse_sigma_nodup sigma hsurj
  have hinv_lt := inverse_sigma_entries sigma hsurj
  have hinv_surj := inverse_sigma_surj sigma hnd hlt
  rw [transposition_group_eq_map _ _ hinv_nd hinv_lt hinv_surj, inverse_sigma_length]
  have hpt : ∀ j ∈ List.range sigma.length,
      (transposition_group sigma b)[(transposition_inverse_sigma sigma).indexOf j]! = b[j]! := by
    intro j hj
    have hjlt : j < sigma.length := List.mem_range.mp hj
    rw [inverse_sigma_indexOf sigma hnd hlt hsurj j hjlt]
    rw [transposition_group_eq_map sigma b hnd hlt hsurj]
    have hsj : sigma[j]! = sigma[j] := getElem!_pos sigma j hjlt
    have hsj_lt : sigma[j]! < sigma.length := by
      rw [hsj]; exact hlt _ (List.getElem_mem hjlt)
    have hmap_len : sigma[j]! <
        ((List.range sigma.length).map (fun i => b[sigma.indexOf i]!)).length := by
      simpa using hsj_lt
    rw [getElem!_pos ((List.range sigma.length).map (fun i => b[sigma.indexOf i]!)) (sigma[j]!)
      hmap_len, List.getElem_map, List.getElem_range]
    congr 1
    rw [hsj]
    exact List.indexOf_getElem hnd j hjlt
  rw [List.map_congr_left hpt]
  rw [← hb]
  exact map_getElemBang_range b

/-! ### Pipeline lemmas: Caesar -/

/-- The end-to-end effect of the Caesar pipeline on one character. -/
def caesar_char (shift : Int) (c : Nat) : Nat :=
  character_representation (caesar_encrypt_group shift (numeric_representation c))

theorem group_by_fn_one (text : List Nat) :
    group_by_fn 1 text = Except.ok (chunk 1 text) := by
  have h := group_by_fn_pos 1 Nat.one_pos text
  simpa using h

theorem caesar_encrypt_ok (shift : Int) (s : List Nat) (h : ∀ c ∈ s, isLS c) :
    caesar_encrypt shift s = Except.ok (s.map (caesar_char shift)) := by
  unfold caesar_encrypt
  rw [to_lower_id s h, group_by_fn_one, chunk_one]
  simp only [List.map_map]
  congr 1

theorem caesar_char_isLS (shift : Int) (c : Nat) (h : isLS c) :
    isLS (caesar_char shift c) := by
  unfold caesar_char caesar_encrypt_group
  apply isLS_character
  rcases h with h32 | ⟨h1, h2⟩
  · left
    unfold numeric_representation
    rw [if_pos (by omega)]
  · right
    unfold numeric_representation
    rw [if_neg (by omega)]
    constructor
    · exact Int.emod_nonneg _ (by omega)
    · exact Int.emod_lt_of_pos _ (by omega)

theorem caesar_char_cancel (shift : Int) (c : Nat) (h : isLS c) :
    caesar_char (-shift) (caesar_char shift c) = c := by
  unfold caesar_char
  rcases h with h32 | ⟨h1, h2⟩
  · subst h32
    have hnum : numeric_representation 32 = -65 := by
      unfold numeric_representation; omega
    rw [hnum]
    unfold caesar_encrypt_group
    rw [if_pos rfl]
    have hc : character_representation (-65) = 32 := by
      unfold character_representation; omega
    rw [hc, hnum, if_pos rfl, hc]
  · have hrange : 0 ≤ numeric_representation c ∧ numeric_representation c < 26 := by
      unfold numeric_representation; omega
    have hne : numeric_representation c ≠ -65 := by omega
    unfold caesar_encrypt_group
    rw [if_neg hne]
    set v := (numeric_representation c + shift) % 26 with hv
    have hv0 : 0 ≤ v := Int.emod_nonneg _ (by omega)
    have hv26 : v < 26 := Int.emod_lt_of_pos _ (by omega)
    rw [numeric_character v (by omega)]
    rw [if_neg (by omega)]
    have hcancel : (v + -shift) % 26 = numeric_representation c :=
      emod_shift_cancel (numeric_representation c) shift (-shift) hrange.1 hrange.2
        (by simp)
    rw [hv] at hcancel
    rw [hcancel, character_numeric]

theorem caesar_roundtrip (shift : Int) (s : List Nat) (h : ∀ c ∈ s, isLS c) :
    (caesar_encrypt shift s).bind (caesar_decrypt shift) = Except.ok s := by
  rw [caesar_encrypt_ok shift s h]
  show caesar_decrypt shift (s.map (caesar_char shift)) = Except.ok s
  unfold caesar_decrypt
  rw [caesar_encrypt_ok (-shift) _ (by
    intro c hc
    rcases List.mem_map.mp hc with ⟨c0, hc0, hcc⟩
    rw [← hcc]
    exact caesar_char_isLS shift c0 (h c0 hc0))]
  rw [List.map_map]
  congr 1
  have := List.map_congr_left (l := s)
    (f := caesar_char (-shift) ∘ caesar_char shift) (g := id) (by
      intro c hc
      exact caesar_char_cancel shift c (h c hc))
  rw [this, List.map_id]

/-! ### Pipeline lemmas: Vigenère -/

theorem vig_group_length (key : List Int) :
    ∀ (i : Nat) (l : List Int), (vigenere_encrypt_group key i l).length = l.length := by
  intro i l
  induction l generalizing i with
  | nil => rfl
  | cons c rest ih => simp [vigenere_encrypt_group, ih]

theorem vig_group_mem (key : List Int) :
    ∀ (i : Nat) (l : List Int), ∀ v ∈ vigenere_encrypt_group key i l,
      v = -65 ∨ (0 ≤ v ∧ v < 26) := by
  intro i l
  induction l generalizing i with
  | nil => intro v hv; simp [vigenere_encrypt_group] at hv
  | cons c rest ih =>
    intro v hv
    unfold vigenere_encrypt_group at hv
    rcases List.mem_cons.mp hv with hv | hv
    · by_cases hc : c = -65
      · rw [if_pos hc] at hv
        left; exact hv
      · rw [if_neg hc] at hv
        right
        subst hv
        exact ⟨Int.emod_nonneg _ (by omega), Int.emod_lt_of_pos _ (by omega)⟩
    · exact ih (i + 1) v hv

theorem vigenere_encrypt_ok (key : List Nat) (s : List Nat) (hs : s ≠ [])
    (h : ∀ c ∈ s, isLS c) :
    vigenere_encrypt key s = Except.ok
      ((vigenere_encrypt_group (vig_key_digits key) 0 (s.map numeric_representation)).map
        character_representation) := by
  unfold vigenere_encrypt
  rw [to_lower_id s h, group_by_fn_neg (-1) (by omega) s hs]
  simp

theorem vig_key_digits_map (key : List Nat) (h : ∀ c ∈ key, 97 ≤ c ∧ c ≤ 122) :
    vig_key_digits (vig_decryption_key key)
      = (vig_key_digits key).map (fun k => 26 - k) := by
  unfold vig_key_digits vig_decryption_key vig_key_digits
  simp only [List.map_map]
  apply List.map_congr_left
  intro c hc
  have hrange := h c hc
  show numeric_representation (character_representation (26 - numeric_representation c))
      = 26 - numeric_representation c
  apply numeric_character
  unfold numeric_representation
  omega

theorem vig_key_digits_range (key : List Nat) (h : ∀ c ∈ key, 97 ≤ c ∧ c ≤ 122) :
    ∀ k ∈ vig_key_digits key, 0 ≤ k ∧ k < 26 := by
  intro k hk
  rcases List.mem_map.mp hk with ⟨c, hc, hck⟩
  have := h c hc
  rw [← hck]
  unfold numeric_representation
  omega

theorem vig_group_cons (key : List Int) (i : Nat) (c : Int) (rest : List Int) :
    vigenere_encrypt_group key i (c :: rest)
      = (if c = -65 then (-65 : Int) else (c + key[i % key.length]!) % 26)
        :: vigenere_encrypt_group key (i + 1) rest := rfl

theorem vig_group_cancel (K : List Int) (hK : ∀ k ∈ K, 0 ≤ k ∧ k < 26) (hKne : K ≠ []) :
    ∀ (l : List Int) (i : Nat), (∀ v ∈ l, v = -65 ∨ (0 ≤ v ∧ v < 26)) →
      vigenere_encrypt_group (K.map (fun k => 26 - k)) i (vigenere_encrypt_group K i l)
        = l := by
  intro l
  induction l with
  | nil => intro i _; rfl
  | cons c rest ih =>
    intro i hmem
    have hKlen : 0 < K.length := List.length_pos.mpr hKne
    have hKlen2 : (K.map (fun k => 26 - k)).length = K.length := by simp
    have hidx : i % K.length < K.length := Nat.mod_lt _ hKlen
    have hkmem : K[i % K.length]! ∈ K := by
      rw [getElem!_pos K _ hidx]
      exact List.getElem_mem hidx
    have hkrange := hK _ hkmem
    have hmlen : i % K.length < (K.map (fun k => 26 - k)).length := by
      rw [hKlen2]; exact hidx
    have hkval : (K.map (fun k => 26 - k))[i % (K.map (fun k => 26 - k)).length]!
        = 26 - K[i % K.length]! := by
      rw [hKlen2]
      rw [getElem!_pos (K.map (fun k => 26 - k)) (i % K.length) hmlen,
        getElem!_pos K _ hidx, List.getElem_map]
    have hrest := ih (i + 1) (fun x hx => hmem x (List.mem_cons_of_mem c hx))
    rw [vig_group_cons K i c rest]
    by_cases hc : c = -65
    · rw [if_pos hc, vig_group_cons, if_pos rfl, hrest, hc]
    · rw [if_neg hc, vig_group_cons]
      have hcrange : 0 ≤ c ∧ c < 26 := by
        rcases hmem c (List.mem_cons_self c rest) with h65 | hr
        · exact absurd h65 hc
        · exact hr
      have hv0 : 0 ≤ (c + K[i % K.length]!) % 26 := Int.emod_nonneg _ (by omega)
      have hvne : (c + K[i % K.length]!) % 26 ≠ -65 := by omega
      rw [if_neg hvne, hkval, hrest]
      congr 1
      exact emod_shift_cancel c (K[i % K.length]!) (26 - K[i % K.length]!)
        hcrange.1 hcrange.2 (by
          have harith : K[i % K.length]! + (26 - K[i % K.length]!) = 26 := by ring
          rw [harith]
          decide)

theorem vigenere_roundtrip (key : List Nat) (s : List Nat) (hkey : key ≠ [])
    (hkl : ∀ c ∈ key, 97 ≤ c ∧ c ≤ 122) (hs : s ≠ []) (h : ∀ c ∈ s, isLS c) :
    (vigenere_encrypt key s).bind (vigenere_decrypt key) = Except.ok s := by
  rw [vigenere_encrypt_ok key s hs h]
  set K := vig_key_digits key with hKdef
  set E := (vigenere_encrypt_group K 0 (s.map numeric_representation)).map
    character_representation with hE
  show vigenere_decrypt key E = Except.ok s
  have hlmem : ∀ v ∈ s.map numeric_representation, v = -65 ∨ (0 ≤ v ∧ v < 26) := by
    intro v hv
    rcases List.mem_map.mp hv with ⟨c, hc, hcv⟩
    rcases h c hc with h32 | ⟨h1, h2⟩ <;> rw [← hcv] <;> unfold numeric_representation
    · left; omega
    · right; omega
  have hEmem : ∀ c ∈ E, isLS c := by
    intro c hc
    rcases List.mem_map.mp hc with ⟨v, hv, hvc⟩
    rw [← hvc]
    exact isLS_character v (vig_group_mem K 0 _ v hv)
  have hEne : E ≠ [] := by
    rw [hE]
    intro hcon
    have hlen := congrArg List.length hcon
    simp only [List.length_map, vig_group_length, List.length_nil] at hlen
    exact hs (List.length_eq_zero.mp hlen)
  unfold vigenere_decrypt
  rw [vigenere_encrypt_ok (vig_decryption_key key) E hEne hEmem]
  have hEnum : E.map numeric_representation
      = vigenere_encrypt_group K 0 (s.map numeric_representation) := by
    rw [hE, List.map_map]
    have := List.map_congr_left
      (l := vigenere_encrypt_group K 0 (s.map numeric_representation))
      (f := numeric_representation ∘ character_representation) (g := id) (by
        intro v hv
        show numeric_representation (character_representation v) = v
        apply numeric_character
        rcases vig_group_mem K 0 _ v hv with h65 | hr <;> omega)
    rw [this, List.map_id]
  rw [hEnum, vig_key_digits_map key hkl, ← hKdef]
  have hKrange := vig_key_digits_range key hkl
  have hKne : K ≠ [] := by
    rw [hKdef]
    unfold vig_key_digits
    simp only [Ne, List.map_eq_nil_iff]
    exact hkey
  rw [vig_group_cancel K hKrange hKne (s.map numeric_representation) 0 hlmem]
  congr 1
  rw [List.map_map]
  have := List.map_congr_left (l := s)
    (f := character_representation ∘ numeric_representation) (g := id) (by
      intro c _
      exact character_numeric c)
  rw [this, List.map_id]

/-! ### Pipeline lemmas: transposition -/

theorem transposition_encrypt_ok (sigma : List Nat) (hne : sigma ≠ []) (s : List Nat) :
    transposition_encrypt sigma s = Except.ok
      (((chunk sigma.length (transposition_pad sigma.length s)).map
        (transposition_group sigma)).flatten) := by
  have hn : 0 < sigma.length := List.length_pos.mpr hne
  unfold transposition_encrypt
  rw [group_by_fn_pos sigma.length hn]

theorem transposition_roundtrip (sigma : List Nat) (hnd : sigma.Nodup)
    (hlt : ∀ x ∈ sigma, x < sigma.length)
    (hsurj : ∀ j, j < sigma.length → j ∈ sigma) (hne : sigma ≠ []) (s : List Nat) :
    (transposition_encrypt sigma s).bind (transposition_decrypt sigma)
      = Except.ok (transposition_pad sigma.length s) := by
  set n := sigma.length with hn_def
  have hn : 0 < n := List.length_pos.mpr hne
  set t := transposition_pad n s with ht_def
  have htdvd : n ∣ t.length := transposition_pad_dvd n hn s
  set bs := chunk n t with hbs_def
  have hbs_len : ∀ b ∈ bs, b.length = n := mem_chunk_length_dvd hn t htdvd
  have hmap_len : ∀ b ∈ bs.map (transposition_group sigma), b.length = n := by
    intro b hb
    rcases List.mem_map.mp hb with ⟨b0, hb0, hbb⟩
    rw [← hbb]
    exact transposition_group_length sigma b0 hnd hlt hsurj
  rw [transposition_encrypt_ok sigma hne s]
  show transposition_decrypt sigma ((bs.map (transposition_group sigma)).flatten)
      = Except.ok t
  set E := (bs.map (transposition_group sigma)).flatten with hE_def
  have hElen : n ∣ E.length := by
    rw [hE_def, flatten_length_const _ hmap_len]
    exact dvd_mul_left n _
  unfold transposition_decrypt
  have hinvne : transposition_inverse_sigma sigma ≠ [] := by
    have hlen : (transposition_inverse_sigma sigma).length = sigma.length :=
      inverse_sigma_length sigma
    intro hcon
    rw [hcon] at hlen
    simp only [List.length_nil] at hlen
    exact hne (List.length_eq_zero.mp hlen.symm)
  rw [transposition_encrypt_ok _ hinvne E]
  rw [inverse_sigma_length]
  rw [transposition_pad_of_dvd n hn E hElen]
  rw [hE_def, chunk_flatten hn _ hmap_len]
  rw [List.map_map]
  have hcancel : ∀ b ∈ bs,
      (transposition_group (transposition_inverse_sigma sigma) ∘ transposition_group sigma) b
        = id b := by
    intro b hb
    exact tg_cancel sigma hnd hlt hsurj b (hbs_len b hb)
  rw [List.map_congr_left hcancel, List.map_id, hbs_def, flatten_chunk hn t]

/-! ### Pipeline lemmas: RSA -/

theorem mem_chunk_even {α : Type} {g : Nat} (hg : 0 < g) (hg2 : 2 ∣ g) :
    ∀ (l : List α), 2 ∣ l.length → ∀ b ∈ chunk g l, 2 ∣ b.length := by
  have key : ∀ (n : Nat) (l : List α), l.length ≤ n → 2 ∣ l.length →
      ∀ b ∈ chunk g l, 2 ∣ b.length := by
    intro n
    induction n with
    | zero =>
      intro l h _ b hb
      have : l = [] := List.length_eq_zero.mp (Nat.le_antisymm h (Nat.zero_le _))
      subst this; simp [chunk_nil] at hb
    | succ n ih =>
      intro l h hdvd b hb
      by_cases hl : l = []
      · subst hl; simp [chunk_nil] at hb
      · rw [chunk_cons hg l hl] at hb
        rcases List.mem_cons.mp hb with hb | hb
        · subst hb
          rw [List.length_take]
          rcases Nat.le_total g l.length with hle | hle
          · rw [Nat.min_eq_left hle]; exact hg2
          · rw [Nat.min_eq_right hle]; exact hdvd
        · have h0 : 0 < l.length := List.length_pos.mpr hl
          have hdlen : (l.drop g).length = l.length - g := List.length_drop g l
          apply ih (l.drop g) (by omega) _ b hb
          rw [hdlen]
          exact Nat.dvd_sub' hdvd hg2
  intro l
  exact key l.length l (Nat.le_refl _)

theorem int_str_pairs_le :
    ∀ (prs : List (List Nat)), (∀ pr ∈ prs, pr.length = 2 ∧ int_str pr ≤ 25) →
      int_str prs.flatten ≤ S25 prs.length := by
  intro prs
  induction prs with
  | nil =>
    intro _
    show int_str [] ≤ S25 0
    rw [int_str_nil]
    exact Nat.le_refl _
  | cons pr rest ih =>
    intro h
    have hpr := h pr (List.mem_cons_self _ _)
    have hrest : ∀ x ∈ rest, x.length = 2 ∧ int_str x ≤ 25 :=
      fun x hx => h x (List.mem_cons_of_mem _ hx)
    have hflatlen : rest.flatten.length = rest.length * 2 :=
      flatten_length_const rest (fun x hx => (hrest x hx).1)
    rw [List.flatten_cons, int_str_append, hflatlen]
    have hpow : (10 : Nat) ^ (rest.length * 2) = 100 ^ rest.length := by
      rw [Nat.mul_comm rest.length 2, Nat.pow_mul]
    rw [hpow]
    have h1 : int_str pr * 100 ^ rest.length ≤ 25 * 100 ^ rest.length :=
      Nat.mul_le_mul_right _ hpr.2
    have h2 := ih hrest
    calc int_str pr * 100 ^ rest.length + int_str rest.flatten
        ≤ 25 * 100 ^ rest.length + S25 rest.length := by omega
    _ = S25 (rest.length + 1) := (S25_succ_left rest.length).symm
    _ = S25 (pr :: rest).length := by rw [List.length_cons]

theorem int_str_rep25 : ∀ k : Nat, int_str ((List.replicate k [50, 53]).flatten) = S25 k := by
  intro k
  induction k with
  | zero => rfl
  | succ k ih =>
    rw [List.replicate_succ, List.flatten_cons, int_str_append]
    have hlen0 : ((List.replicate k ([50, 53] : List Nat)).flatten).length
        = (List.replicate k ([50, 53] : List Nat)).length * 2 :=
      flatten_length_const _ (fun b hb => by rw [List.eq_of_mem_replicate hb]; rfl)
    rw [List.length_replicate] at hlen0
    rw [hlen0, ih]
    have hpow : (10 : Nat) ^ (k * 2) = 100 ^ k := by
      rw [Nat.mul_comm k 2, Nat.pow_mul]
    have h25 : int_str [50, 53] = 25 := rfl
    rw [hpow, h25, S25_succ_left]

theorem letters_range (s : List Nat) (h : ∀ c ∈ s, isLS c) :
    ∀ c ∈ remove_spaces (to_lower_case s), 97 ≤ c ∧ c ≤ 122 := by
  rw [to_lower_id s h]
  intro c hc
  unfold remove_spaces at hc
  rcases List.mem_filter.mp hc with ⟨hcs, hc32⟩
  have hne : c ≠ 32 := by simpa using hc32
  rcases h c hcs with h32 | hr
  · exact absurd h32 hne
  · exact hr

theorem convert_pair_props (c : Nat) (h : 97 ≤ c ∧ c ≤ 122) :
    (pad_numeric_representation (numeric_representation c).toNat).length = 2 ∧
    int_str (pad_numeric_representation (numeric_representation c).toNat) = c - 97 ∧
    (∀ x ∈ pad_numeric_representation (numeric_representation c).toNat,
      48 ≤ x ∧ x ≤ 57) := by
  have hto : (numeric_representation c).toNat = c - 97 := by
    unfold numeric_representation
    omega
  rw [hto]
  exact ⟨pad_len_two _ (by omega), int_str_pad _, pad_isDigits _⟩

theorem calculate_group_by_even (n : Nat) : 2 ∣ calculate_group_by n := by
  unfold calculate_group_by
  exact ⟨group_by_loop n n 25 0, Nat.mul_comm _ 2⟩

theorem calculate_group_by_pos (n : Nat) (h : 25 < n) : 0 < calculate_group_by n := by
  obtain ⟨c, hc, _, hSc1⟩ := calculate_group_by_spec n (by omega)
  rcases Nat.eq_zero_or_pos c with h0 | h0
  · subst h0
    have h25 : S25 1 = 25 := rfl
    rw [h25] at hSc1
    omega
  · omega

theorem rsa_encrypt_ok (n e : Nat) (hg : 0 < calculate_group_by n) (s : List Nat) :
    rsa_encrypt n e s = Except.ok
      (((chunk (calculate_group_by n)
          (convert_to_rsa_format (remove_spaces (to_lower_case s)))).map
        (fun b => pad_numeric_representation (int_str b ^ e % n))).flatten) := by
  unfold rsa_encrypt
  rw [group_by_fn_pos _ hg]

theorem rsa_decryption_encrypt_ok (n d : Nat) (hg : 0 < calculate_group_by n)
    (x : List Nat) :
    rsa_decryption_encrypt n d x = Except.ok
      (((chunk (calculate_group_by n) x).map (fun b =>
        convert_each_2_digits_to_char (pad_numeric_representation (int_str b ^ d % n)))).flatten) := by
  unfold rsa_decryption_encrypt
  rw [group_by_fn_pos _ hg]

theorem rsa_roundtrip (p q e d : Nat) (hp : p.Prime) (hq : q.Prime) (hpq : p ≠ q)
    (hn : 25 < p * q) (hgcd : Nat.gcd e ((p - 1) * (q - 1)) = 1)
    (hd : calculate_d e ((p - 1) * (q - 1)) = some d)
    (s : List Nat) (hs : ∀ c ∈ s, isLS c)
    (hb1 : ∀ b ∈ chunk (calculate_group_by (p * q))
        (convert_to_rsa_format (remove_spaces (to_lower_case s))),
      pad_numeric_representation (int_str b) = b)
    (hb2 : ∀ b ∈ chunk (calculate_group_by (p * q))
        (convert_to_rsa_format (remove_spaces (to_lower_case s))),
      (pad_numeric_representation (int_str b ^ e % (p * q))).length
        = calculate_group_by (p * q)) :
    (rsa_encrypt (p * q) e s).bind (rsa_decryption_encrypt (p * q) d)
      = Except.ok (remove_spaces (to_lower_case s)) := by
  obtain ⟨c, hgc, hSc, hSc1⟩ := calculate_group_by_spec (p * q) (by omega)
  have hgpos : 0 < calculate_group_by (p * q) := calculate_group_by_pos (p * q) hn
  have hc1 : 1 ≤ c := by
    rcases Nat.eq_zero_or_pos c with h0 | h0
    · subst h0
      have h25 : S25 1 = 25 := rfl
      rw [h25] at hSc1
      omega
    · omega
  have hgeven : 2 ∣ calculate_group_by (p * q) := calculate_group_by_even (p * q)
  have hlr := letters_range s hs
  -- structure of the digit string
  have hpair_all : ∀ pr ∈ (remove_spaces (to_lower_case s)).map
      (fun c0 => pad_numeric_representation (numeric_representation c0).toNat),
      pr.length = 2 ∧ int_str pr ≤ 25 := by
    intro pr hpr
    rcases List.mem_map.mp hpr with ⟨c0, hc0, hcpr⟩
    obtain ⟨hl2, hlint, _⟩ := convert_pair_props c0 (hlr c0 hc0)
    have hle : c0 - 97 ≤ 25 := by
      have := hlr c0 hc0
      omega
    rw [← hcpr]
    exact ⟨hl2, by rw [hlint]; exact hle⟩
  have ht_eq : convert_to_rsa_format (remove_spaces (to_lower_case s))
      = ((remove_spaces (to_lower_case s)).map
        (fun c0 => pad_numeric_representation (numeric_representation c0).toNat)).flatten := rfl
  have ht_pairs : chunk 2 (convert_to_rsa_format (remove_spaces (to_lower_case s)))
      = (remove_spaces (to_lower_case s)).map
        (fun c0 => pad_numeric_representation (numeric_representation c0).toNat) := by
    rw [ht_eq]
    exact chunk_flatten Nat.two_pos _ (fun b hb => (hpair_all b hb).1)
  have ht_dvd2 : 2 ∣ (convert_to_rsa_format (remove_spaces (to_lower_case s))).length := by
    rw [ht_eq, flatten_length_const _ (fun b hb => (hpair_all b hb).1)]
    exact dvd_mul_left 2 _
  have hbs_le := mem_chunk_length hgpos
    (convert_to_rsa_format (remove_spaces (to_lower_case s)))
  have hbs_even := mem_chunk_even hgpos hgeven
    (convert_to_rsa_format (remove_spaces (to_lower_case s))) ht_dvd2
  have hchunk2_dist : chunk 2 (convert_to_rsa_format (remove_spaces (to_lower_case s)))
      = ((chunk (calculate_group_by (p * q))
          (convert_to_rsa_format (remove_spaces (to_lower_case s)))).map (chunk 2)).flatten := by
    conv_lhs => rw [← flatten_chunk hgpos
      (convert_to_rsa_format (remove_spaces (to_lower_case s)))]
    exact chunk_two_flatten _ hbs_even
  have hblock_pairs : ∀ b ∈ chunk (calculate_group_by (p * q))
      (convert_to_rsa_format (remove_spaces (to_lower_case s))),
      ∀ pr ∈ chunk 2 b, pr.length = 2 ∧ int_str pr ≤ 25 := by
    intro b hb pr hpr
    have hmem : pr ∈ chunk 2 (convert_to_rsa_format (remove_spaces (to_lower_case s))) := by
      rw [hchunk2_dist]
      exact List.mem_flatten_of_mem (List.mem_map_of_mem _ hb) hpr
    rw [ht_pairs] at hmem
    exact hpair_all pr hmem
  -- every block parses below the modulus
  have hval : ∀ b ∈ chunk (calculate_group_by (p * q))
      (convert_to_rsa_format (remove_spaces (to_lower_case s))), int_str b < p * q := by
    intro b hb
    have hb_flat : (chunk 2 b).flatten = b := flatten_chunk Nat.two_pos b
    have hprs := hblock_pairs b hb
    have hbound := int_str_pairs_le (chunk 2 b) hprs
    rw [hb_flat] at hbound
    have hlen2 : b.length = (chunk 2 b).length * 2 := by
      conv_lhs => rw [← hb_flat]
      exact flatten_length_const _ (fun pr hpr => (hprs pr hpr).1)
    have hble : b.length ≤ calculate_group_by (p * q) := (hbs_le b hb).1
    have hcle : (chunk 2 b).length ≤ c := by omega
    calc int_str b ≤ S25 (chunk 2 b).length := hbound
    _ ≤ S25 c := S25_mono hcle
    _ < p * q := hSc
  -- the private exponent
  have hphi1 : 1 < (p - 1) * (q - 1) := phi_gt_one p q hp hq hpq
  have hd_eq : d = mod_inverse e ((p - 1) * (q - 1)) := by
    have hcd := calculate_d_coprime e ((p - 1) * (q - 1)) (by omega) hgcd
    rw [hd] at hcd
    exact Option.some_injective _ hcd
  have hed : (e * d) % ((p - 1) * (q - 1)) = 1 := by
    rw [hd_eq]
    exact (mod_inverse_spec e ((p - 1) * (q - 1)) hphi1 hgcd).1
  -- run the encryption
  rw [rsa_encrypt_ok (p * q) e hgpos s]
  show rsa_decryption_encrypt (p * q) d _ = _
  rw [rsa_decryption_encrypt_ok (p * q) d hgpos]
  have hrender_len : ∀ rb ∈ (chunk (calculate_group_by (p * q))
      (convert_to_rsa_format (remove_spaces (to_lower_case s)))).map
        (fun b => pad_numeric_representation (int_str b ^ e % (p * q))),
      rb.length = calculate_group_by (p * q) := by
    intro rb hrb
    rcases List.mem_map.mp hrb with ⟨b, hb, hbr⟩
    rw [← hbr]
    exact hb2 b hb
  rw [chunk_flatten hgpos _ hrender_len, List.map_map]
  have hperblock : ∀ b ∈ chunk (calculate_group_by (p * q))
      (convert_to_rsa_format (remove_spaces (to_lower_case s))),
      ((fun b0 => convert_each_2_digits_to_char
          (pad_numeric_representation (int_str b0 ^ d % (p * q)))) ∘
        (fun b0 => pad_numeric_representation (int_str b0 ^ e % (p * q)))) b
        = convert_each_2_digits_to_char b := by
    intro b hb
    show convert_each_2_digits_to_char (pad_numeric_representation
      (int_str (pad_numeric_representation (int_str b ^ e % (p * q))) ^ d % (p * q)))
      = convert_each_2_digits_to_char b
    rw [int_str_pad, rsa_block_value p q hp hq hpq e d hed (int_str b) (hval b hb),
      hb1 b hb]
  rw [List.map_congr_left hperblock]
  -- reassemble the characters
  unfold convert_each_2_digits_to_char
  have hmapmap : (chunk (calculate_group_by (p * q))
      (convert_to_rsa_format (remove_spaces (to_lower_case s)))).map
        (fun b => (chunk 2 b).map
          (fun pr => character_representation ((int_str pr : Int))))
      = ((chunk (calculate_group_by (p * q))
          (convert_to_rsa_format (remove_spaces (to_lower_case s)))).map (chunk 2)).map
        (List.map (fun pr => character_representation ((int_str pr : Int)))) := by
    rw [List.map_map]
    rfl
  rw [hmapmap, ← List.map_flatten, ← hchunk2_dist, ht_pairs, List.map_map]
  congr 1
  have hpoint : ∀ c0 ∈ remove_spaces (to_lower_case s),
      ((fun pr => character_representation ((int_str pr : Int))) ∘
        (fun c1 => pad_numeric_representation (numeric_representation c1).toNat)) c0
        = id c0 := by
    intro c0 hc0
    obtain ⟨_, hlint, _⟩ := convert_pair_props c0 (hlr c0 hc0)
    show character_representation
        ((int_str (pad_numeric_representation (numeric_representation c0).toNat) : Int)) = c0
    rw [hlint]
    unfold character_representation
    have := hlr c0 hc0
    omega
  rw [List.map_congr_left hpoint, List.map_id]

/-! ### Infrastructure: trial division in `calculate_p_and_q` -/

theorem d_test_true (e phi : Nat) : d_test e phi = true := by
  unfold d_test
  cases hcd : calculate_d e phi with
  | none => rfl
  | some d =>
    simp only [bne_iff_ne, Ne]
    omega

theorem find_first_divisor (n e p : Nat) (hp2 : 2 ≤ p) (hpn : p < n) (hdvd : p ∣ n)
    (hmin : ∀ j, j < p → 2 ≤ j → ¬ j ∣ n) :
    (List.range' 2 (n - 2)).find?
        (fun x => n % x == 0 && d_test e ((x - 1) * (n / x - 1))) = some p := by
  have hsplit : List.range' 2 (n - 2) = List.range' 2 (p - 2) ++ List.range' p (n - p) := by
    have h := List.range'_append_1 2 (p - 2) (n - p)
    rw [show 2 + (p - 2) = p by omega, show n - p + (p - 2) = n - 2 by omega] at h
    exact h.symm
  rw [hsplit, List.find?_append]
  have h1 : (List.range' 2 (p - 2)).find?
      (fun x => n % x == 0 && d_test e ((x - 1) * (n / x - 1))) = none := by
    rw [List.find?_eq_none]
    intro x hx hcon
    obtain ⟨i, hi, hxi⟩ := List.mem_range'.mp hx
    have hx2 : 2 ≤ x := by omega
    have hxp : x < p := by omega
    have hmod : n % x = 0 := beq_iff_eq.mp (Bool.and_eq_true_iff.mp hcon).1
    exact hmin x hxp hx2 (Nat.dvd_of_mod_eq_zero hmod)
  rw [h1]
  have hnp : n - p = (n - p - 1) + 1 := by omega
  rw [hnp, List.range'_succ]
  have hpos : (n % p == 0 && d_test e ((p - 1) * (n / p - 1))) = true := by
    rw [Bool.and_eq_true_iff]
    exact ⟨beq_iff_eq.mpr (Nat.mod_eq_zero_of_dvd hdvd), d_test_true e _⟩
  rw [List.find?_cons, hpos]
  rfl

theorem find_no_divisor (n e : Nat) (hnone : ∀ m, m < n → 2 ≤ m → ¬ m ∣ n) :
    (List.range' 2 (n - 2)).find?
        (fun x => n % x == 0 && d_test e ((x - 1) * (n / x - 1))) = none := by
  rw [List.find?_eq_none]
  intro x hx hcon
  obtain ⟨i, hi, hxi⟩ := List.mem_range'.mp hx
  have hmod : n % x = 0 := beq_iff_eq.mp (Bool.and_eq_true_iff.mp hcon).1
  exact hnone x (by omega) (by omega) (Nat.dvd_of_mod_eq_zero hmod)

theorem p_and_q_first_divisor (n e : Nat) (h2n : 2 ≤ n) (h2e : 2 ≤ e) (hen : e < n)
    (p : Nat) (hp2 : 2 ≤ p) (hpn : p < n) (hdvd : p ∣ n)
    (hmin : ∀ j, j < p → 2 ≤ j → ¬ j ∣ n) :
    calculate_p_and_q n e = Except.ok ((p : Int), ((n / p : Nat) : Int)) := by
  unfold calculate_p_and_q
  rw [if_neg (by omega : ¬ n < 2), if_neg (by omega : ¬ e < 2), if_neg (by omega : ¬ n ≤ e)]
  rw [find_first_divisor n e p hp2 hpn hdvd hmin]

theorem p_and_q_no_divisor (n e : Nat) (h2n : 2 ≤ n) (h2e : 2 ≤ e) (hen : e < n)
    (hnone : ∀ m, m < n → 2 ≤ m → ¬ m ∣ n) :
    calculate_p_and_q n e = Except.ok (-1, -1) := by
  unfold calculate_p_and_q
  rw [if_neg (by omega : ¬ n < 2), if_neg (by omega : ¬ e < 2), if_neg (by omega : ¬ n ≤ e)]
  rw [find_no_divisor n e hnone]

/-! ### Claim C2 -/

/-- C2 counterexample: the shift and polyalphabetic transforms do NOT pass
through every out-of-alphabet code.  The code for the character `!`
(`ord 33 - 97 = -64`) is outside `[0, 25]`, yet with shift 3 both transforms
wrap it modulo 26 to 17 instead of returning it unchanged. -/
theorem C2_passthrough_counterexample :
    caesar_encrypt_group 3 (-64) = 17 ∧ (17 : Int) ≠ -64 ∧
    vigenere_encrypt_group [3] 0 [-64] = [17] := by
  refine ⟨?_, by decide, ?_⟩ <;> decide

/-- C2 (amended): only the sentinel code `-65` (the space character) passes
through the shift and polyalphabetic transforms unchanged; every other
numeric code, inside or outside `[0, 25]`, is shifted and wrapped modulo 26. -/
theorem C2_passthrough_amended :
    (∀ (k c : Int), c = -65 → caesar_encrypt_group k c = c) ∧
    (∀ (k c : Int), c ≠ -65 → caesar_encrypt_group k c = (c + k) % 26) ∧
    (∀ (key : List Int) (i : Nat) (c : Int), c = -65 →
      vigenere_encrypt_group key i [c] = [c]) ∧
    (∀ (key : List Int) (i : Nat) (c : Int), c ≠ -65 →
      vigenere_encrypt_group key i [c] = [(c + key[i % key.length]!) % 26]) := by
  refine ⟨?_, ?_, ?_, ?_⟩
  · intro k c hc
    subst hc
    unfold caesar_encrypt_group
    rw [if_pos rfl]
  · intro k c hc
    unfold caesar_encrypt_group
    rw [if_neg hc]
  · intro key i c hc
    subst hc
    rw [vig_group_cons, if_pos rfl]
    rfl
  · intro key i c hc
    rw [vig_group_cons, if_neg hc]
    rfl

/-- C2 witness: the amended statement at shift 7 and key `[5]`, on the
sentinel `-65` and the in-range code 3. -/
theorem C2_passthrough_amended_witness :
    caesar_encrypt_group 7 (-65) = -65 ∧
    caesar_encrypt_group 7 3 = (3 + 7) % 26 ∧
    vigenere_encrypt_group [5] 0 [-65] = [-65] ∧
    vigenere_encrypt_group [5] 0 [3] = [(3 + ([(5 : Int)])[0 % ([(5 : Int)]).length]!) % 26] :=
  ⟨C2_passthrough_amended.1 7 (-65) rfl,
   C2_passthrough_amended.2.1 7 3 (by decide),
   C2_passthrough_amended.2.2.1 [5] 0 (-65) rfl,
   C2_passthrough_amended.2.2.2 [5] 0 3 (by decide)⟩

/-! ### Claim C4 -/

/-- C4 counterexample: the padding count is NOT always nonzero.  For block
size 5 and the length-5 input `"abcde"`, `pad` appends zero filler symbols
and returns the string unchanged (no full block is added). -/
theorem C4_padding_counterexample :
    transposition_pad 5 [97, 98, 99, 100, 101] = [97, 98, 99, 100, 101] ∧
    pad_count 5 5 = 0 := by
  constructor <;> decide

/-- C4 (amended): `pad` appends exactly `n - ((len - 1) mod n) - 1` filler
symbols; the count is always below `n` (never a full block), it is zero
exactly when the length is already a multiple of `n`, and the padded length
is always a multiple of `n`. -/
theorem C4_padding_amended (n : Nat) (hn : 0 < n) (s : List Nat) :
    (transposition_pad n s).length = s.length + pad_count n s.length ∧
    pad_count n s.length < n ∧
    n ∣ (transposition_pad n s).length ∧
    (pad_count n s.length = 0 ↔ s.length % n = 0) := by
  obtain ⟨h1, _, h3⟩ := pad_count_spec n s.length hn
  refine ⟨?_, h1, transposition_pad_dvd n hn s, h3⟩
  unfold transposition_pad
  simp

/-- C4 witness: the amended statement for block size 5 on the length-6
string `"abcdef"` (four fillers appended, padded length 10). -/
theorem C4_padding_amended_witness :
    (transposition_pad 5 [97, 98, 99, 100, 101, 102]).length
      = [97, 98, 99, 100, 101, 102].length + pad_count 5 [97, 98, 99, 100, 101, 102].length ∧
    pad_count 5 [97, 98, 99, 100, 101, 102].length < 5 ∧
    5 ∣ (transposition_pad 5 [97, 98, 99, 100, 101, 102]).length ∧
    (pad_count 5 [97, 98, 99, 100, 101, 102].length = 0 ↔
      [97, 98, 99, 100, 101, 102].length % 5 = 0) :=
  C4_padding_amended 5 (by norm_num) [97, 98, 99, 100, 101, 102]

/-! ### Claim C5 -/

/-- C5 counterexample: the derived decryption key digit is NOT
`(26 - key[i]) mod 26`.  For the key `"a"` (digit 0) the derived cipher
stores the digit 26 (the character `{`), not `(26 - 0) mod 26 = 0`. -/
theorem C5_inverse_key_counterexample :
    vig_key_digits (vig_decryption_key [97]) = [26] ∧
    (26 - numeric_representation 97) % 26 = 0 ∧
    (26 : Int) ≠ 0 := by
  refine ⟨?_, ?_, ?_⟩ <;> decide

/-- C5 (amended): for an all-lowercase key, the derived decryption key
preserves length and order and its digit at each position is `26 - key[i]`
(without reduction modulo 26, so the digit for `a` is 26, not 0). -/
theorem C5_inverse_key_amended (key : List Nat) (h : ∀ c ∈ key, 97 ≤ c ∧ c ≤ 122) :
    vig_key_digits (vig_decryption_key key)
      = (vig_key_digits key).map (fun k => 26 - k) ∧
    (vig_decryption_key key).length = key.length := by
  refine ⟨vig_key_digits_map key h, ?_⟩
  unfold vig_decryption_key vig_key_digits
  simp

/-- C5 witness: the amended statement for the key `"ab"`. -/
theorem C5_inverse_key_amended_witness :
    vig_key_digits (vig_decryption_key [97, 98])
      = (vig_key_digits [97, 98]).map (fun k => 26 - k) ∧
    (vig_decryption_key [97, 98]).length = [97, 98].length :=
  C5_inverse_key_amended [97, 98] (by decide)

/-! ### Claim C6 -/

/-- C6 counterexample: `calculate_group_by` does NOT return the smallest
even digit count whose blocks are guaranteed below the modulus: for
`n = 2537` it returns 4, although the smaller even digit count 2 already
guarantees every one-code block (at most `"25"`, value 25) is below 2537. -/
theorem C6_group_size_counterexample :
    calculate_group_by 2537 = 4 ∧ int_str [50, 53] = 25 ∧ 25 < 2537 ∧ (2 : Nat) < 4 := by
  refine ⟨?_, ?_, ?_, ?_⟩ <;> decide

/-- C6 (amended): `calculate_group_by n` returns the LARGEST even digit
count `2c` such that every block of at most `c` two-digit codes, each at
most 25, parses below `n`: blocks of up to `c` codes are always below `n`,
while the maximal block of `c + 1` codes (`"25"` repeated) already reaches
`n`.  Consequently no block of the returned group size can reach the
modulus. -/
theorem C6_group_size_amended (n : Nat) (hn : 1 ≤ n) :
    ∃ c, calculate_group_by n = 2 * c ∧
      (∀ prs : List (List Nat), (∀ pr ∈ prs, pr.length = 2 ∧ int_str pr ≤ 25) →
        prs.length ≤ c → int_str prs.flatten < n) ∧
      n ≤ int_str ((List.replicate (c + 1) [50, 53]).flatten) := by
  obtain ⟨c, hc, hSc, hSc1⟩ := calculate_group_by_spec n hn
  refine ⟨c, hc, ?_, ?_⟩
  · intro prs hprs hlen
    calc int_str prs.flatten ≤ S25 prs.length := int_str_pairs_le prs hprs
    _ ≤ S25 c := S25_mono hlen
    _ < n := hSc
  · rw [int_str_rep25]
    exact hSc1

/-- C6 witness: the amended statement at `n = 2537` (where `c = 2`:
blocks of two codes stay below 2537, `"252525"` does not). -/
theorem C6_group_size_amended_witness :
    ∃ c, calculate_group_by 2537 = 2 * c ∧
      (∀ prs : List (List Nat), (∀ pr ∈ prs, pr.length = 2 ∧ int_str pr ≤ 25) →
        prs.length ≤ c → int_str prs.flatten < 2537) ∧
      2537 ≤ int_str ((List.replicate (c + 1) [50, 53]).flatten) :=
  C6_group_size_amended 2537 (by norm_num)

/-! ### Claim C7 -/

/-- C7 counterexample: grouping a zero-length input does NOT always yield a
zero-length output without error.  In the whole-input mode `group_by = -1`
(the Vigenère configuration) the effective step is `len("") = 0` and Python
`range` raises `ValueError: range() arg 3 must not be zero`. -/
theorem C7_empty_input_counterexample :
    vigenere_encrypt [97] [] = Except.error rangeStepErr ∧
    group_by_fn (-1) [] = Except.error rangeStepErr := by
  constructor <;> rfl

/-- C7 (amended): with a positive group size (shift, transposition, RSA
configurations) grouping the empty input yields an empty grouping and
encryption returns the empty string; but in the whole-input mode
`group_by = -1` (polyalphabetic and compound configurations) the empty
input makes grouping raise the range step-zero error. -/
theorem C7_empty_input_amended :
    (∀ g : Nat, 0 < g → group_by_fn (g : Int) [] = Except.ok []) ∧
    (∀ gb : Int, gb < 0 → group_by_fn gb [] = Except.error rangeStepErr) ∧
    (∀ shift : Int, caesar_encrypt shift [] = Except.ok []) ∧
    (∀ sigma : List Nat, sigma ≠ [] → transposition_encrypt sigma [] = Except.ok []) ∧
    (∀ n e : Nat, 25 < n → rsa_encrypt n e [] = Except.ok []) ∧
    (∀ key : List Nat, vigenere_encrypt key [] = Except.error rangeStepErr) := by
  refine ⟨?_, ?_, ?_, ?_, ?_, ?_⟩
  · intro g hg
    rw [group_by_fn_pos g hg, chunk_nil]
  · intro gb hgb
    exact group_by_fn_neg_nil gb hgb
  · intro shift
    have h := caesar_encrypt_ok shift [] (by simp)
    simpa using h
  · intro sigma hne
    have hn : 0 < sigma.length := List.length_pos.mpr hne
    rw [transposition_encrypt_ok sigma hne []]
    have hpad : transposition_pad sigma.length [] = [] := by
      unfold transposition_pad
      rw [List.length_nil, pad_count_zero_len _ hn]
      rfl
    rw [hpad, chunk_nil]
    rfl
  · intro n e h25
    have hg := calculate_group_by_pos n h25
    rw [rsa_encrypt_ok n e hg []]
    have hconv : convert_to_rsa_format (remove_spaces (to_lower_case [])) = [] := rfl
    rw [hconv, chunk_nil]
    rfl
  · intro key
    unfold vigenere_encrypt
    rw [show to_lower_case [] = [] from rfl, group_by_fn_neg_nil (-1) (by omega)]

/-- C7 witness: the amended statement at group size 2, shift 3,
permutation `[0]`, RSA modulus 2537, and key `"a"`. -/
theorem C7_empty_input_amended_witness :
    group_by_fn ((2 : Nat) : Int) [] = Except.ok [] ∧
    group_by_fn (-1) [] = Except.error rangeStepErr ∧
    caesar_encrypt 3 [] = Except.ok [] ∧
    transposition_encrypt [0] [] = Except.ok [] ∧
    rsa_encrypt 2537 13 [] = Except.ok [] ∧
    vigenere_encrypt [97] [] = Except.error rangeStepErr :=
  ⟨C7_empty_input_amended.1 2 (by norm_num),
   C7_empty_input_amended.2.1 (-1) (by norm_num),
   C7_empty_input_amended.2.2.1 3,
   C7_empty_input_amended.2.2.2.1 [0] (by decide),
   C7_empty_input_amended.2.2.2.2.1 2537 13 (by norm_num),
   C7_empty_input_amended.2.2.2.2.2 [97]⟩

/-! ### Claim C8 -/

/-- C8: for coprime `e` and `phi > 1`, `calculate_d_slow` returns some `d`
in `[0, phi)` with `(e * d) mod phi = 1`. -/
theorem C8_calculate_d_slow_correct (e phi : Nat) (hphi : 1 < phi)
    (hco : Nat.gcd e phi = 1) :
    ∃ d, calculate_d_slow e phi = some d ∧ d < phi ∧ (e * d) % phi = 1 := by
  obtain ⟨h1, h2⟩ := mod_inverse_spec e phi hphi hco
  have hmem : mod_inverse e phi ∈ List.range phi := List.mem_range.mpr h2
  have hpred : ((e * mod_inverse e phi) % phi == 1) = true := beq_iff_eq.mpr h1
  have hsome : ((List.range phi).find? (fun d => (e * d) % phi == 1)).isSome := by
    rw [List.find?_isSome]
    exact ⟨mod_inverse e phi, hmem, hpred⟩
  obtain ⟨d, hd⟩ := Option.isSome_iff_exists.mp hsome
  refine ⟨d, hd, ?_, ?_⟩
  · exact List.mem_range.mp (List.mem_of_find?_eq_some hd)
  · have hp := List.find?_some hd
    exact beq_iff_eq.mp hp

/-- C8 witness: `e = 13`, `phi = (43 - 1) * (59 - 1) = 2436`. -/
theorem C8_calculate_d_slow_correct_witness :
    ∃ d, calculate_d_slow 13 2436 = some d ∧ d < 2436 ∧ (13 * d) % 2436 = 1 :=
  C8_calculate_d_slow_correct 13 2436 (by norm_num) (by decide)

/-! ### Claim C9 -/

/-- C9: `calculate_d` never returns `-1` (it returns `none`, Python `None`,
when `e` is not invertible), so the acceptance test `!= -1` in
`calculate_p_and_q` holds for every candidate, and key recovery on a
composite `n` returns the smallest divisor `p ≥ 2` with `q = n / p`
regardless of invertibility of `e`. -/
theorem C9_d_never_minus_one :
    (∀ e phi d : Nat, calculate_d e phi = some d → ((d : Int) ≠ -1)) ∧
    (∀ e phi : Nat, d_test e phi = true) ∧
    (∀ e phi : Nat, Nat.gcd e phi ≠ 1 → calculate_d e phi = none) ∧
    (∀ n e : Nat, 2 ≤ n → 2 ≤ e → e < n →
      ∀ p : Nat, 2 ≤ p → p < n → p ∣ n → (∀ j, j < p → 2 ≤ j → ¬ j ∣ n) →
        calculate_p_and_q n e = Except.ok ((p : Int), ((n / p : Nat) : Int))) := by
  refine ⟨?_, d_test_true, calculate_d_not_coprime, ?_⟩
  · intro e phi d _
    omega
  · intro n e h2n h2e hen p hp2 hpn hdvd hmin
    exact p_and_q_first_divisor n e h2n h2e hen p hp2 hpn hdvd hmin

/-- C9 witness: `calculate_d 4 8 = none` (4 and 8 share a factor), the
acceptance test still passes, and recovery at `n = 12`, `e = 5` returns the
smallest divisor pair `(2, 6)` even though 5 has no inverse modulo
`(2-1)*(6-1) = 5`. -/
theorem C9_d_never_minus_one_witness :
    d_test 13 2436 = true ∧ calculate_d 4 8 = none ∧
    calculate_p_and_q 12 5 = Except.ok (2, 6) := by
  refine ⟨C9_d_never_minus_one.2.1 13 2436, C9_d_never_minus_one.2.2.1 4 8 (by decide), ?_⟩
  exact C9_d_never_minus_one.2.2.2 12 5 (by norm_num) (by norm_num) (by norm_num) 2
    (by norm_num) (by norm_num) (by norm_num) (by decide)

/-! ### Claim C3 -/

/-- C3 counterexample: `calculate_p_and_q` does NOT return the first factor
for which a modular inverse exists.  For `n = 12`, `e = 5` it returns
`(2, 6)` although 5 has no inverse modulo `(2-1)*(6-1) = 5` (the factor 3
would give phi `= (3-1)*(4-1) = 6`, coprime to 5). -/
theorem C3_key_recovery_counterexample :
    calculate_p_and_q 12 5 = Except.ok (2, 6) ∧
    Nat.gcd 5 ((2 - 1) * (12 / 2 - 1)) ≠ 1 ∧
    Nat.gcd 5 ((3 - 1) * (12 / 3 - 1)) = 1 ∧
    ((2 : Int), (6 : Int)) ≠ ((3 : Int), (4 : Int)) := by
  refine ⟨rfl, ?_, ?_, ?_⟩ <;> decide

/-- C3 (amended): under the constructor guards, trial division returns the
FIRST divisor `p` of `n` in `[2, n)` paired with `n / p`, regardless of
whether a modular inverse of `e` exists (the acceptance test never fails
because `calculate_d` returns `None`, not `-1`); the sentinel `(-1, -1)` is
returned, not an exception, when no divisor is found; on `n = 2537`,
`e = 13` this yields `(43, 59)`. -/
theorem C3_key_recovery_amended (n e : Nat) (h2n : 2 ≤ n) (h2e : 2 ≤ e) (hen : e < n) :
    (∀ p : Nat, 2 ≤ p → p < n → p ∣ n → (∀ j, j < p → 2 ≤ j → ¬ j ∣ n) →
      calculate_p_and_q n e = Except.ok ((p : Int), ((n / p : Nat) : Int))) ∧
    ((∀ m, m < n → 2 ≤ m → ¬ m ∣ n) → calculate_p_and_q n e = Except.ok (-1, -1)) :=
  ⟨fun p hp2 hpn hdvd hmin => p_and_q_first_divisor n e h2n h2e hen p hp2 hpn hdvd hmin,
   fun hnone => p_and_q_no_divisor n e h2n h2e hen hnone⟩

/-- C3 witness: recovery at `(n, e) = (2537, 13)` returns `(43, 59)`, and
at the prime modulus `(13, 5)` it returns the sentinel `(-1, -1)`. -/
theorem C3_key_recovery_amended_witness :
    calculate_p_and_q 2537 13 = Except.ok (43, 59) ∧
    calculate_p_and_q 13 5 = Except.ok (-1, -1) := by
  constructor
  · exact (C3_key_recovery_amended 2537 13 (by norm_num) (by norm_num) (by norm_num)).1
      43 (by norm_num) (by norm_num) (by norm_num) (by decide)
  · exact (C3_key_recovery_amended 13 5 (by norm_num) (by norm_num) (by norm_num)).2
      (by decide)

/-! ### Claim C10 -/

/-- C10: for every modulus `n ≤ 25` the derived group size is 0, RSA
construction with default primes nevertheless succeeds, and grouping then
fails on every input with the range step-zero error, so such instances are
constructible but unusable. -/
theorem C10_small_modulus_unusable (n e : Nat) (hn : n ≤ 25) :
    calculate_group_by n = 0 ∧ (rsa_init n e).group_by = 0 ∧
    (∀ text : List Nat,
      group_by_fn (((rsa_init n e).group_by : Nat) : Int) text
        = Except.error rangeStepErr) := by
  have hloop : group_by_loop n n 25 0 = 0 := by
    cases n with
    | zero => rfl
    | succ m =>
      have hstep : group_by_loop (m + 1) (m + 1) 25 0
          = if 25 < m + 1 then group_by_loop m (m + 1) (25 * 100 + 25) (0 + 1) else 0 := rfl
      rw [hstep, if_neg (by omega)]
  have hcg : calculate_group_by n = 0 := by
    unfold calculate_group_by
    rw [hloop]
  refine ⟨hcg, hcg, ?_⟩
  intro text
  rw [show (((rsa_init n e).group_by : Nat) : Int) = ((calculate_group_by n : Nat) : Int)
    from rfl, hcg, Nat.cast_zero]
  exact group_by_fn_zero text

/-- C10 witness: the statement at `n = 25`, `e = 3`, input `"ab"`. -/
theorem C10_small_modulus_unusable_witness :
    calculate_group_by 25 = 0 ∧ (rsa_init 25 3).group_by = 0 ∧
    group_by_fn (((rsa_init 25 3).group_by : Nat) : Int) [97, 98]
      = Except.error rangeStepErr := by
  obtain ⟨h1, h2, h3⟩ := C10_small_modulus_unusable 25 3 (by norm_num)
  exact ⟨h1, h2, h3 [97, 98]⟩

/-! ### Claim C1 -/

/-- C1 counterexample: the round trip fails on the code as stated.
Polyalphabetic: encrypting the empty string (a valid string of lowercase
letters and spaces) raises the range step-zero error instead of returning
the preprocessed form.  RSA (`p = 43`, `q = 59`, `e = 13`, whose derived
private exponent is 937): encrypting `"aa"` yields the two-digit block
`"00"`, which decrypts to `"a"`, not to `"aa"`. -/
theorem C1_roundtrip_counterexample :
    vigenere_encrypt [97] [] = Except.error rangeStepErr ∧
    calculate_d 13 ((43 - 1) * (59 - 1)) = some 937 ∧
    rsa_encrypt 2537 13 [97, 97] = Except.ok [48, 48] ∧
    rsa_decryption_encrypt 2537 937 [48, 48] = Except.ok [97] ∧
    remove_spaces (to_lower_case [97, 97]) = [97, 97] ∧
    [97] ≠ [97, 97] := by
  refine ⟨rfl, by decide, rfl, ?_, by decide, by decide⟩
  have hgp : 0 < calculate_group_by 2537 := calculate_group_by_pos 2537 (by norm_num)
  rw [rsa_decryption_encrypt_ok 2537 937 hgp [48, 48]]
  have hch : chunk (calculate_group_by 2537) [48, 48] = [[48, 48]] := by decide
  rw [hch]
  have hzero : int_str [48, 48] = 0 := by decide
  simp only [List.map_cons, List.map_nil, hzero]
  rw [zero_pow (by norm_num : (937 : Nat) ≠ 0)]
  rfl

/-- C1 (amended): the round trip `decrypt (encrypt s) = preprocessed s`
holds for the shift cipher on every string of lowercase letters and spaces;
for the polyalphabetic cipher on every NONEMPTY such string (with a
nonempty lowercase key); for the transposition cipher (any permutation of
`{0..n-1}`, result is the padded string); and for RSA (distinct primes,
modulus above 25, `e` invertible modulo phi, result is the input lowercased
with spaces removed) under two additional block conditions the code
silently requires: every plaintext block must re-render to exactly its own
digits (no block may collapse, e.g. by starting with the code `00` of `a`)
and every ciphertext block must render to exactly the group width. -/
theorem C1_roundtrip_amended :
    (∀ (shift : Int) (s : List Nat), (∀ c ∈ s, isLS c) →
      (caesar_encrypt shift s).bind (caesar_decrypt shift) = Except.ok s) ∧
    (∀ (key s : List Nat), key ≠ [] → (∀ c ∈ key, 97 ≤ c ∧ c ≤ 122) → s ≠ [] →
      (∀ c ∈ s, isLS c) →
      (vigenere_encrypt key s).bind (vigenere_decrypt key) = Except.ok s) ∧
    (∀ (sigma s : List Nat), sigma.Nodup → (∀ x ∈ sigma, x < sigma.length) →
      (∀ j, j < sigma.length → j ∈ sigma) → sigma ≠ [] →
      (transposition_encrypt sigma s).bind (transposition_decrypt sigma)
        = Except.ok (transposition_pad sigma.length s)) ∧
    (∀ (p q e d : Nat) (s : List Nat), p.Prime → q.Prime → p ≠ q → 25 < p * q →
      Nat.gcd e ((p - 1) * (q - 1)) = 1 →
      calculate_d e ((p - 1) * (q - 1)) = some d →
      (∀ c ∈ s, isLS c) →
      (∀ b ∈ chunk (calculate_group_by (p * q))
          (convert_to_rsa_format (remove_spaces (to_lower_case s))),
        pad_numeric_representation (int_str b) = b) →
      (∀ b ∈ chunk (calculate_group_by (p * q))
          (convert_to_rsa_format (remove_spaces (to_lower_case s))),
        (pad_numeric_representation (int_str b ^ e % (p * q))).length
          = calculate_group_by (p * q)) →
      (rsa_encrypt (p * q) e s).bind (rsa_decryption_encrypt (p * q) d)
        = Except.ok (remove_spaces (to_lower_case s))) := by
  refine ⟨caesar_roundtrip, ?_, ?_, ?_⟩
  · intro key s hkey hkl hs h
    exact vigenere_roundtrip key s hkey hkl hs h
  · intro sigma s hnd hlt hsurj hne
    exact transposition_roundtrip sigma hnd hlt hsurj hne s
  · intro p q e d s hp hq hpq hn hgcd hd hs hb1 hb2
    exact rsa_roundtrip p q e d hp hq hpq hn hgcd hd s hs hb1 hb2

/-- C1 witness: shift 5 on `"ab c"`, key `"ab"` on `"ab c"`, the
permutation `[1, 0]` on `"abc"` (round trip returns the padded `"abc?"`),
and RSA `p = 43`, `q = 59`, `e = 13`, `d = 937` on `"bb"` (one block
`"0101"`, ciphertext block 1342, both conditions hold). -/
theorem C1_roundtrip_amended_witness :
    (caesar_encrypt 5 [97, 98, 32, 99]).bind (caesar_decrypt 5)
      = Except.ok [97, 98, 32, 99] ∧
    (vigenere_encrypt [97, 98] [97, 98, 32, 99]).bind (vigenere_decrypt [97, 98])
      = Except.ok [97, 98, 32, 99] ∧
    (transposition_encrypt [1, 0] [97, 98, 99]).bind (transposition_decrypt [1, 0])
      = Except.ok (transposition_pad 2 [97, 98, 99]) ∧
    (rsa_encrypt 2537 13 [98, 98]).bind (rsa_decryption_encrypt 2537 937)
      = Except.ok (remove_spaces (to_lower_case [98, 98])) := by
  refine ⟨C1_roundtrip_amended.1 5 [97, 98, 32, 99] (by decide),
    C1_roundtrip_amended.2.1 [97, 98] [97, 98, 32, 99] (by decide) (by decide)
      (by decide) (by decide),
    C1_roundtrip_amended.2.2.1 [1, 0] [97, 98, 99] (by decide) (by decide)
      (by decide) (by decide),
    C1_roundtrip_amended.2.2.2 43 59 13 937 [98, 98] (by norm_num) (by norm_num)
      (by norm_num) (by norm_num) (by decide) (by decide) (by decide) (by decide)
      (by decide)⟩

end PyEncrypt
